import Mathlib

/-!
# memorycache: TTL cache over sharded buckets

A shallow embedding of `memorycache.go` (type `MemoryCache` with `New`, `Set`, `Get`,
`Delete`, `Expire`, `Keys`), of `config.go` (`withInitialize`) and of
`internal/utils/helper.go` (`ToBinaryNumber`), together with the collaborators that
live in other files of the repository (`concurrent_hashmap`, and the binary
min-heap with `Push`, `Pop`, `Front` and `Delete` that `heap_test.go` exercises).

Conventions of the embedding:

* the wall clock is an explicit argument `now`, the reading of `time.Now()` in
  nanoseconds since the Unix epoch (a natural number: the clock reads at or after
  the epoch); every call reads the clock once;
* a `time.Duration` is a signed number of nanoseconds;
* an `interface{}` value is `Option α`, with `none` for Go's `nil`;
* a Go `map[string]element` is an association list with pairwise distinct keys
  (`AList`), the list order being one admissible iteration order;
* mutexes are not modelled: every method runs atomically;
* a loop of the source is a function with an explicit bound on its rounds; where
  the loop always ends the bound is shown immaterial, where it may not end the
  function returns `none` when the bound is used up.
-/

set_option autoImplicit false

namespace memorycache

/-! ## Time -/

/-- Reading of `time.Now()`: nanoseconds since the Unix epoch. -/
abbrev Time := Nat

/-- Go's `time.Duration`: signed nanoseconds. -/
abbrev Duration := Int

/-- Go's `Time.UnixMilli` on an instant given in nanoseconds: whole milliseconds
since the epoch, rounded down. -/
def UnixMilli (t : Int) : Int := t / 1000000

/-- Go's `Time.Add`: the instant `d` after the clock reading `t`. -/
def Add (t : Time) (d : Duration) : Int := (t : Int) + d

/-! ## Data model -/

/-- The `element` struct of `memorycache.go`: `ExpireAt` in ms, `-1` as forever. -/
structure element (α : Type) where
  Value : Option α
  ExpireAt : Int
deriving DecidableEq, Repr

namespace heap

/-- The `heap.Element` struct pushed by `Set` and `Expire`. -/
structure Element where
  Key : String
  ExpireAt : Int
deriving DecidableEq, Repr

/-- Modelled from the spec: the array-backed binary min-heap of `internal/heap`
(section 4.1), whose source file is not part of the sources at hand. `Data` is the
backing array. -/
structure Heap where
  Data : List Element
deriving DecidableEq, Repr

namespace Heap

/-- Modelled from the spec: the empty heap. -/
def empty : Heap := ⟨[]⟩

/-- Modelled from the spec: number of elements of the heap. -/
def Len (h : Heap) : Nat := h.Data.length

/-- Modelled from the spec: the heap order, strict less-than on `ExpireAt`
(section 4.1, "Ordering"). -/
def Less (h : Heap) (i j : Nat) : Bool :=
  match h.Data[i]?, h.Data[j]? with
  | some a, some b => decide (a.ExpireAt < b.ExpireAt)
  | _, _ => false

/-- Modelled from the spec: exchange the elements at positions `i` and `j`. -/
def Swap (h : Heap) (i j : Nat) : Heap :=
  match h.Data[i]?, h.Data[j]? with
  | some a, some b => ⟨(h.Data.set i b).set j a⟩
  | _, _ => h

/-- Modelled from the spec: the loop of sifting up, with an explicit bound on the
number of rounds: exchange the element at position `i` with its parent
`(i - 1) / 2` while it is strictly less than the parent. -/
def upLoop : Nat → Heap → Nat → Heap
  | 0, h, _ => h
  | fuel + 1, h, i =>
    if 0 < i ∧ h.Less i ((i - 1) / 2) = true then
      upLoop fuel (h.Swap i ((i - 1) / 2)) ((i - 1) / 2)
    else h

/-- Modelled from the spec: sift the element at position `i` up. The position
strictly decreases in every round, so `i` rounds always suffice (`Up_eq`). -/
def Up (h : Heap) (i : Nat) : Heap := upLoop i h i

/-- Modelled from the spec: `push(e)` appends `e` and sifts it up (section 4.1). -/
def Push (h : Heap) (e : Element) : Heap :=
  (Heap.mk (h.Data ++ [e])).Up h.Data.length

/-- Modelled from the spec: `front()` returns the root without removal (section
4.1); `none`, Go's `nil`, on the empty heap. -/
def Front (h : Heap) : Option Element := h.Data[0]?

/-- Modelled from the spec: the loop of sifting down within the first `n`
positions, with an explicit bound on the number of rounds: take the smaller child
of position `i` (the right one only when strictly less than the left one) and
exchange it with `i` while it is strictly less than the element at `i`. -/
def downLoop : Nat → Heap → Nat → Nat → Heap
  | 0, h, _, _ => h
  | fuel + 1, h, i, n =>
    if 2 * i + 1 < n then
      if h.Less
          (if 2 * i + 2 < n ∧ h.Less (2 * i + 2) (2 * i + 1) = true then 2 * i + 2
            else 2 * i + 1) i = true then
        downLoop fuel
          (h.Swap i
            (if 2 * i + 2 < n ∧ h.Less (2 * i + 2) (2 * i + 1) = true then 2 * i + 2
              else 2 * i + 1))
          (if 2 * i + 2 < n ∧ h.Less (2 * i + 2) (2 * i + 1) = true then 2 * i + 2
            else 2 * i + 1) n
      else h
    else h

/-- Modelled from the spec: sift the element at position `i` down within the first
`n` positions. The position strictly increases in every round and stays below `n`,
so `n` rounds always suffice (`Down_eq`). -/
def Down (h : Heap) (i n : Nat) : Heap := downLoop n h i n

/-- Modelled from the spec: the first two steps of `pop()` and `delete(i)`, swapping
the element at position `i` with the last and shrinking by one. -/
def cut (h : Heap) (i : Nat) : Heap :=
  Heap.mk ((h.Swap i (h.Len - 1)).Data.take (h.Len - 1))

/-- Modelled from the spec: `pop()` removes and returns the root, or `none` (the
sentinel "empty", Go's `nil`) on the empty heap; it swaps the root with the last
element, shrinks, and sifts down (section 4.1). -/
def Pop (h : Heap) : Option Element × Heap :=
  match h.Data[0]? with
  | none => (none, h)
  | some root => (some root, (h.cut 0).Down 0 (h.Len - 1))

/-- Modelled from the spec: `delete(i)` removes the element at index `i` by
swapping it with the last, shrinking, and re-heapifying at `i`: sift down, then
sift up if the replacement is smaller than its parent (section 4.1). For an index
out of range nothing is removed. -/
def Delete (h : Heap) (i : Nat) : Heap :=
  if h.Len ≤ i then h
  else if i < h.Len - 1 then ((h.cut i).Down i (h.Len - 1)).Up i
  else h.cut i

/-- The `ExpireAt` of the element at position `i` (0 outside the heap). -/
def expireAt (h : Heap) (i : Nat) : Int :=
  match h.Data[i]? with
  | some e => e.ExpireAt
  | none => 0

/-- The min-heap property on `ExpireAt` (section 8, invariant 1): the element at
`i` is at most its children at `2i+1` and `2i+2`. -/
def IsHeap (h : Heap) : Prop :=
  ∀ i, i < h.Len →
    (2 * i + 1 < h.Len → h.expireAt i ≤ h.expireAt (2 * i + 1)) ∧
      (2 * i + 2 < h.Len → h.expireAt i ≤ h.expireAt (2 * i + 2))

instance (h : Heap) : Decidable (IsHeap h) := by
  unfold IsHeap
  infer_instance

/-- The heap obtained by pushing the elements of `xs`, in order, onto the empty
heap. -/
def pushAll (xs : List Element) : Heap := xs.foldl Push empty

/-- The loop `for h.Len() > 0 { list = append(list, h.Pop()) }` of `TestHeap_Sort`,
with an explicit bound on the number of rounds. -/
def popLoop : Nat → Heap → List Element
  | 0, _ => []
  | fuel + 1, h =>
    if 0 < h.Len then
      match h.Pop with
      | (some e, h') => e :: popLoop fuel h'
      | (none, _) => []
    else []

/-- Calling `Pop` until `Len` is 0: every `Pop` removes one element, so `Len` rounds
suffice (`length_popAll`). -/
def popAll (h : Heap) : List Element := popLoop h.Len h

/-- The heap after `k` calls of `Pop`. -/
def popTimes : Nat → Heap → Heap
  | 0, h => h
  | k + 1, h => popTimes k h.Pop.2

/-- The element at `c` is at least its parent at `(c - 1) / 2`. -/
def ParentLe (h : Heap) (c : Nat) : Prop :=
  h.expireAt ((c - 1) / 2) ≤ h.expireAt c

/-- Every position other than the root is at least its parent. -/
def ParentOrdered (h : Heap) : Prop :=
  ∀ c, 0 < c → c < h.Len → h.ParentLe c

/-- The children of `i` are at least the parent of `i`. -/
def GrandOrdered (h : Heap) (i : Nat) : Prop :=
  ∀ c, 0 < c → c < h.Len → (c - 1) / 2 = i → 0 < i →
    h.expireAt ((i - 1) / 2) ≤ h.expireAt c

/-- The state sifting up from `i` starts in: the heap order holds except possibly
between `i` and its parent. -/
def UpReady (h : Heap) (i : Nat) : Prop :=
  (∀ c, 0 < c → c < h.Len → c ≠ i → h.ParentLe c) ∧ h.GrandOrdered i

/-- The state sifting down from `i` starts in: the heap order holds except possibly
between `i` and its children. -/
def DownReady (h : Heap) (i : Nat) : Prop :=
  (∀ c, 0 < c → c < h.Len → (c - 1) / 2 ≠ i → h.ParentLe c) ∧ h.GrandOrdered i

end Heap
end heap

/-- Modelled from the spec: one shard of `concurrent_hashmap` (section 3, entity
Bucket), whose source file is not part of the sources at hand: the mapping `data`
from key to element and the min-heap `ttl`. -/
structure bucket (α : Type) where
  data : AList (fun _ : String => element α)
  ttl : heap.Heap

/-- Modelled from the spec: the sharded storage, a slice of buckets. -/
structure concurrent_hashmap (α : Type) where
  buckets : List (bucket α)

/-- The `MemoryCache` struct of `memorycache.go`. -/
structure MemoryCache (α : Type) where
  storage : concurrent_hashmap α

/-- The `Config` struct of `memorycache.go`. -/
structure Config where
  TTLCheckInterval : Int
  ClearKeysCount : Nat
  Segment : Nat
deriving DecidableEq, Repr

namespace bucket

/-- A bucket with an empty mapping and an empty heap. -/
def empty {α : Type} : bucket α := ⟨∅, heap.Heap.empty⟩

end bucket

namespace concurrent_hashmap

variable {α : Type}

/-- Modelled from the spec: `newConcurrentHashmap` allocates `Segment` empty
buckets (section 4.4). -/
def newConcurrentHashmap (cfg : Config) : concurrent_hashmap α :=
  ⟨List.replicate cfg.Segment bucket.empty⟩

/-- Modelled from the spec: `getBucket` routes a key to the bucket numbered
`hash(key) mod bucket_count` (section 3). The hash function is a parameter. This
is the index of the bucket. -/
def getBucket (hash : String → Nat) (m : concurrent_hashmap α) (key : String) : Nat :=
  hash key % m.buckets.length

/-- The bucket at index `i`. -/
def bucketAt (m : concurrent_hashmap α) (i : Nat) : bucket α :=
  m.buckets.getD i bucket.empty

/-- Write bucket `b` back at index `i` (the Go code mutates through a pointer). -/
def store (m : concurrent_hashmap α) (i : Nat) (b : bucket α) : concurrent_hashmap α :=
  ⟨m.buckets.set i b⟩

end concurrent_hashmap

/-! ## `memorycache.go` -/

namespace Config

/-- The method `Config.initialize` (spelt `initialise` here, the source's name being
a reserved word). -/
def initialise (self : Config) : Config :=
  let self := if self.Segment = 0 then { self with Segment := 16 } else self
  let self := if self.TTLCheckInterval = 0 then { self with TTLCheckInterval := 10 } else self
  let self := if self.ClearKeysCount = 0 then { self with ClearKeysCount := 100 } else self
  self

/-- The loop of `Config.checkSegment`, with an explicit bound on the number of
rounds: `false` when it panics on an odd value. -/
def checkSegmentLoop : Nat → Nat → Bool
  | 0, _ => true
  | fuel + 1, segment =>
    if 1 < segment then
      if segment % 2 ≠ 0 then false else checkSegmentLoop fuel (segment / 2)
    else true

/-- The method `Config.checkSegment`: `true` when it returns, `false` when it
panics. The loop halves `segment`, so `segment` rounds always suffice
(`checkSegmentLoop_eq`). -/
def checkSegment (self : Config) : Bool :=
  if self.Segment ≤ 1 then false else checkSegmentLoop self.Segment self.Segment

end Config

variable {α : Type}

/-- The function `New`: `none` when `checkSegment` panics. -/
def New (config : List Config) : Option (MemoryCache α) :=
  let cfg : Config := match config with
    | [] => ⟨0, 0, 0⟩
    | c :: _ => c
  let cfg := cfg.initialise
  if cfg.checkSegment then some ⟨concurrent_hashmap.newConcurrentHashmap cfg⟩ else none

/-- The method `valid`, at clock reading `now`. -/
def valid (now : Time) (ts : Int) : Bool :=
  ts == -1 || decide (ts > UnixMilli (now : Int))

/-- The method `getExp`, at clock reading `now`; `exp` is the variadic argument. -/
def getExp (now : Time) (exp : List Duration) : Int :=
  match exp with
  | [] => -1
  | d :: _ => if d < 0 then -1 else UnixMilli (Add now d)

/-- The method `Set`, at clock reading `now`; `expire` is the variadic argument. -/
def Set (hash : String → Nat) (self : MemoryCache α) (now : Time) (key : String)
    (value : Option α) (expire : List Duration) : MemoryCache α :=
  let ele : element α := { Value := value, ExpireAt := getExp now expire }
  let i := self.storage.getBucket hash key
  let bucket := self.storage.bucketAt i
  let bucket := { bucket with data := bucket.data.insert key ele }
  let bucket :=
    if ele.ExpireAt ≠ -1 then
      { bucket with ttl := bucket.ttl.Push { Key := key, ExpireAt := ele.ExpireAt } }
    else bucket
  ⟨self.storage.store i bucket⟩

/-- The method `Get`, at clock reading `now`: the pair it returns, and the cache
afterwards (the method writes nothing). -/
def Get (hash : String → Nat) (self : MemoryCache α) (now : Time) (key : String) :
    (Option α × Bool) × MemoryCache α :=
  let bucket := self.storage.bucketAt (self.storage.getBucket hash key)
  match bucket.data.lookup key with
  | none => ((none, false), self)
  | some result =>
    if !valid now result.ExpireAt then ((none, false), self)
    else ((result.Value, true), self)

/-- The method `Delete`; it has no result, so the embedding yields the cache
afterwards and nothing else. -/
def Delete (hash : String → Nat) (self : MemoryCache α) (key : String) : MemoryCache α :=
  let i := self.storage.getBucket hash key
  let bucket := self.storage.bucketAt i
  let bucket := { bucket with data := bucket.data.erase key }
  ⟨self.storage.store i bucket⟩

/-- The method `Expire`, at clock reading `now` (the reading taken in `valid` and
the one taken in `getExp` are the same reading). -/
def Expire (hash : String → Nat) (self : MemoryCache α) (now : Time) (key : String)
    (d : Duration) : MemoryCache α :=
  let i := self.storage.getBucket hash key
  let bucket := self.storage.bucketAt i
  match bucket.data.lookup key with
  | none => self
  | some result =>
    if valid now result.ExpireAt then
      let result := { result with ExpireAt := getExp now [d] }
      let bucket := { bucket with data := bucket.data.insert key result }
      let bucket :=
        if result.ExpireAt ≠ -1 then
          { bucket with ttl := bucket.ttl.Push { Key := key, ExpireAt := result.ExpireAt } }
        else bucket
      ⟨self.storage.store i bucket⟩
    else self

/-- The method `Keys`, at clock reading `now` (one reading for the whole call): the
buckets in order, and in each the entries of the mapping in iteration order. -/
def Keys (self : MemoryCache α) (now : Time) : List String :=
  self.storage.buckets.foldl
    (fun arr bucket =>
      bucket.data.entries.foldl
        (fun arr kv => if valid now kv.2.ExpireAt then arr ++ [kv.1] else arr) arr)
    []

/-! ## Runs of the cache -/

/-- One call of a mutating method of the cache. -/
inductive Op (α : Type) where
  | Set (key : String) (value : Option α) (expire : List Duration)
  | Delete (key : String)
  | Expire (key : String) (d : Duration)

/-- The key a call works on. -/
def Op.key : Op α → String
  | .Set key _ _ => key
  | .Delete key => key
  | .Expire key _ => key

/-- Whether the call is a `Set` of key `k`. -/
def Op.isSetOf (k : String) : Op α → Bool
  | .Set key _ _ => key == k
  | _ => false

/-- The cache after one call made at clock reading `now`. -/
def step (hash : String → Nat) (self : MemoryCache α) (now : Time) : Op α → MemoryCache α
  | .Set key value expire => Set hash self now key value expire
  | .Delete key => Delete hash self key
  | .Expire key d => Expire hash self now key d

/-- The cache after a sequence of calls, each with its clock reading. -/
def run (hash : String → Nat) (self : MemoryCache α) (ops : List (Time × Op α)) :
    MemoryCache α :=
  ops.foldl (fun s o => step hash s o.1 o.2) self

/-- The states reachable from `New` by `Set`, `Delete` and `Expire`. -/
inductive Reachable (hash : String → Nat) : MemoryCache α → Prop where
  | New (config : List Config) (s : MemoryCache α) : New config = some s → Reachable hash s
  | step (s : MemoryCache α) (now : Time) (op : Op α) :
      Reachable hash s → Reachable hash (step hash s now op)

/-- The entry stored for `key` in the mapping of the bucket the key routes to. -/
def stored (hash : String → Nat) (self : MemoryCache α) (key : String) : Option (element α) :=
  (self.storage.bucketAt (self.storage.getBucket hash key)).data.lookup key

/-- The heaps of all buckets, in bucket order. -/
def heaps (self : MemoryCache α) : List heap.Heap :=
  self.storage.buckets.map (fun b => b.ttl)

/-! ## `config.go` -/

namespace config

/-- The constant `DefaultSegment`. -/
def DefaultSegment : Nat := 16

/-- The constant `DefaultTTLCheckInterval`, `30 * time.Second`, in nanoseconds. -/
def DefaultTTLCheckInterval : Duration := 30 * 1000000000

/-- The `Config` struct of `config.go`; `Segment` is a `uint32`, a natural number
below `2 ^ 32`. -/
structure Config where
  TTLCheckInterval : Duration
  Segment : Nat
deriving DecidableEq, Repr

/-- The option `WithSegment`, applied to a configuration. -/
def WithSegment (segment : Nat) (c : Config) : Config := { c with Segment := segment }

/-- The option `WithTTLCheckInterval`, applied to a configuration. -/
def WithTTLCheckInterval (TTLCheckInterval : Duration) (c : Config) : Config :=
  { c with TTLCheckInterval := TTLCheckInterval }

/-- The loop `for segment < c.Segment { segment *= 2 }` of `withInitialize`, on
`uint32` (the product is taken modulo `2 ^ 32`), with an explicit bound on the
number of tests of the loop condition: `none` when the loop has not been left
within the bound. -/
def segmentLoop : Nat → Nat → Nat → Option Nat
  | 0, _, _ => none
  | fuel + 1, segment, target =>
    if segment < target then segmentLoop fuel (segment * 2 % 4294967296) target
    else some segment

/-- The option `withInitialize`, applied to a configuration, with a bound on the
rounds of its loop: `none` when the loop has not been left within the bound. -/
def withInitialize (fuel : Nat) (c : Config) : Option Config :=
  match (if c.Segment ≤ 0 then some DefaultSegment else segmentLoop fuel 1 c.Segment) with
  | none => none
  | some segment =>
    let c := { c with Segment := segment }
    if c.TTLCheckInterval ≤ 0 then some { c with TTLCheckInterval := DefaultTTLCheckInterval }
    else some c

end config

/-! ## `internal/utils/helper.go` -/

namespace utils

/-- The type set of the constraint `Integer`. -/
inductive Integer where
  | int | int64 | int32 | uint | uint64 | uint32
deriving DecidableEq, Repr

namespace Integer

/-- Width in bits; `int` and `uint` are taken on a 64-bit platform. -/
def bits : Integer → Nat
  | int => 64 | int64 => 64 | int32 => 32 | uint => 64 | uint64 => 64 | uint32 => 32

/-- Whether the type is signed. -/
def signed : Integer → Bool
  | int => true | int64 => true | int32 => true
  | uint => false | uint64 => false | uint32 => false

/-- Largest value of the type. -/
def maxValue (T : Integer) : Int :=
  if T.signed then 2 ^ (T.bits - 1) - 1 else 2 ^ T.bits - 1

/-- Smallest value of the type. -/
def minValue (T : Integer) : Int :=
  if T.signed then -(2 ^ (T.bits - 1)) else 0

/-- Reduction of a mathematical integer to the value the type holds for it (Go's
wrap-around arithmetic: modulo `2 ^ bits`, two's complement when signed). -/
def wrap (T : Integer) (x : Int) : Int :=
  if T.signed then (x + 2 ^ (T.bits - 1)) % 2 ^ T.bits - 2 ^ (T.bits - 1)
  else x % 2 ^ T.bits

end Integer

/-- The loop `for x < n { x *= 2 }` of `ToBinaryNumber` at type `T`, with an
explicit bound on the number of tests of the loop condition: `none` when the loop
has not been left within the bound. -/
def ToBinaryNumberLoop (T : Integer) : Nat → Int → Int → Option Int
  | 0, _, _ => none
  | fuel + 1, x, n =>
    if x < n then ToBinaryNumberLoop T fuel (T.wrap (x * 2)) n else some x

/-- The function `ToBinaryNumber` at type `T`, with a bound on the rounds of its
loop: `none` when the loop has not been left within the bound. -/
def ToBinaryNumber (T : Integer) (fuel : Nat) (n : Int) : Option Int :=
  ToBinaryNumberLoop T fuel 1 n

end utils

/-- The number `r` is the least power of two that is at least `n`. -/
def IsLeastPow2 (n r : Nat) : Prop :=
  (∃ e : Nat, r = 2 ^ e) ∧ n ≤ r ∧ ∀ e : Nat, n ≤ 2 ^ e → r ≤ 2 ^ e

/-! ## Concrete instances used as examples -/

/-- A sample hash function: the length of the key. -/
def lenHash : String → Nat := String.length

/-- The cache `New(Config{Segment: 2})` returns. -/
def cache2 : MemoryCache Nat := ⟨⟨[bucket.empty, bucket.empty]⟩⟩

/-- The cache after `Set("a", 1, 1ms)` and then `Set("a", 1, 2ms)`, both at clock
reading 0, on `cache2`. -/
def cacheReSet : MemoryCache Nat :=
  run lenHash cache2 [(0, Op.Set "a" (some 1) [1000000]), (0, Op.Set "a" (some 1) [2000000])]

/-- The cache after `Set("a", 7, 1ms)` at clock reading 0 on `cache2`. -/
def cacheSetA : MemoryCache Nat := Set lenHash cache2 0 "a" (some 7) [1000000]

/-- The cache after `Set("a", 1, 1ms)` and then `Delete("a")` on `cache2`. -/
def cacheSetDelete : MemoryCache Nat :=
  run lenHash cache2 [(0, Op.Set "a" (some 1) [1000000]), (0, Op.Delete "a")]

/-- The cache after `Set("ming", 1, 3h)`, `Set("hong", 1, 1h)` and
`Set("feng", 1, 2h)` at clock reading 0 on `cache2`; the three keys route to the
same bucket. -/
def cacheOverflow : MemoryCache Nat :=
  run lenHash cache2
    [(0, Op.Set "ming" (some 1) [10800000000000]), (0, Op.Set "hong" (some 1) [3600000000000]),
      (0, Op.Set "feng" (some 1) [7200000000000])]

/-- The elements with `ExpireAt` 1 to 10 that `TestHeap_Delete` pushes. -/
def oneToTen : List heap.Element :=
  [⟨"", 1⟩, ⟨"", 2⟩, ⟨"", 3⟩, ⟨"", 4⟩, ⟨"", 5⟩, ⟨"", 6⟩, ⟨"", 7⟩, ⟨"", 8⟩, ⟨"", 9⟩, ⟨"", 10⟩]

/-- A short unsorted sequence of elements. -/
def fiveElements : List heap.Element :=
  [⟨"a", 5⟩, ⟨"b", 3⟩, ⟨"c", 8⟩, ⟨"d", 1⟩, ⟨"e", 3⟩]

/-! ## Bucket-level view of a call, and the invariants of reachable states -/

/-- What a call made at clock reading `now` does to the bucket its key routes to
(the body of `Set`, `Delete` and `Expire` between `Lock` and `Unlock`). -/
def bucketStep (now : Time) : Op α → bucket α → bucket α
  | .Set key value expire, b =>
    { data := b.data.insert key { Value := value, ExpireAt := getExp now expire }
      ttl :=
        if getExp now expire ≠ -1 then
          b.ttl.Push { Key := key, ExpireAt := getExp now expire }
        else b.ttl }
  | .Delete key, b => { data := b.data.erase key, ttl := b.ttl }
  | .Expire key d, b =>
    match b.data.lookup key with
    | none => b
    | some result =>
      if valid now result.ExpireAt then
        { data := b.data.insert key { Value := result.Value, ExpireAt := getExp now [d] }
          ttl :=
            if getExp now [d] ≠ -1 then
              b.ttl.Push { Key := key, ExpireAt := getExp now [d] }
            else b.ttl }
      else b

/-- Routing of a bucket: every key of the mapping and of the heap of the bucket
numbered `i` out of `n` routes to `i`. -/
def Routed (hash : String → Nat) (n i : Nat) (b : bucket α) : Prop :=
  (∀ k ∈ b.data.keys, hash k % n = i) ∧ (∀ x ∈ b.ttl.Data, hash x.Key % n = i)

/-- No element of the heap of the bucket carries the sentinel `-1`. -/
def HeapMortal (b : bucket α) : Prop :=
  ∀ x ∈ b.ttl.Data, x.ExpireAt ≠ -1

/-- Every mortal entry of the mapping has an element in the heap with its key and
its `ExpireAt`. -/
def MortalTracked (b : bucket α) : Prop :=
  ∀ k e, b.data.lookup k = some e → e.ExpireAt ≠ -1 →
    ({ Key := k, ExpireAt := e.ExpireAt } : heap.Element) ∈ b.ttl.Data

/-- Every mortal entry of the mapping has exactly one heap element with its key. -/
def HeapExactlyOnce (b : bucket α) : Prop :=
  ∀ k e, b.data.lookup k = some e → e.ExpireAt ≠ -1 →
    (b.ttl.Data.filter (fun x => x.Key = k)).length = 1

/-- Every heap element's key is stored in the mapping with the same `ExpireAt`. -/
def HeapEntriesStored (b : bucket α) : Prop :=
  ∀ x ∈ b.ttl.Data, ∃ e, b.data.lookup x.Key = some e ∧ e.ExpireAt = x.ExpireAt

/-- Mapping/heap agreement of a bucket in the strict sense: every mortal entry of
the mapping has exactly one heap element with its key, and every heap element's key
is stored in the mapping with the same `ExpireAt`. -/
def HeapAgrees (b : bucket α) : Prop :=
  HeapExactlyOnce b ∧ HeapEntriesStored b

/-- The keys of a bucket whose entry is valid at clock reading `now`, in the
iteration order of the mapping (the inner loop of `Keys`). -/
def liveKeys (now : Time) (b : bucket α) : List String :=
  (b.data.entries.filter (fun kv => valid now kv.2.ExpireAt)).map (fun kv => kv.1)

/-! ## Time and expiry -/

theorem UnixMilli_mono {a b : Int} (h : a ≤ b) : UnixMilli a ≤ UnixMilli b :=
  Int.ediv_le_ediv (by norm_num) h

theorem UnixMilli_nonneg {a : Int} (h : 0 ≤ a) : 0 ≤ UnixMilli a :=
  Int.ediv_nonneg h (by norm_num)

theorem getExp_of_nonneg (now : Time) (d : Duration) (rest : List Duration) (h : 0 ≤ d) :
    getExp now (d :: rest) = UnixMilli (Add now d) := by
  simp [getExp, not_lt.mpr h]

theorem getExp_of_neg (now : Time) (d : Duration) (rest : List Duration) (h : d < 0) :
    getExp now (d :: rest) = -1 := by
  simp [getExp, h]

theorem UnixMilli_Add_ne (now : Time) (d : Duration) (h : 0 ≤ d) :
    UnixMilli (Add now d) ≠ -1 := by
  have h0 : (0 : Int) ≤ d := h
  have h1 : (0 : Int) ≤ Add now d := by unfold Add; omega
  have h2 := UnixMilli_nonneg h1
  omega

theorem valid_iff (now : Time) (ts : Int) :
    valid now ts = true ↔ ts = -1 ∨ UnixMilli (now : Int) < ts := by
  simp [valid]

theorem valid_of_ne {now : Time} {ts : Int} (h : ts ≠ -1) :
    valid now ts = decide (UnixMilli (now : Int) < ts) := by
  by_cases h2 : UnixMilli (now : Int) < ts <;> simp [valid, h, h2]

theorem valid_forever (now : Time) : valid now (-1) = true := by
  simp [valid]

/-- Once a timestamp is no longer valid it stays so at every later clock reading. -/
theorem valid_false_mono {t t' : Time} {ts : Int} (h : valid t ts = false) (htt : t ≤ t') :
    valid t' ts = false := by
  have hm : UnixMilli (t : Int) ≤ UnixMilli (t' : Int) := UnixMilli_mono (by exact_mod_cast htt)
  simp only [valid, Bool.or_eq_false_iff, decide_eq_false_iff_not, beq_eq_false_iff_ne] at h ⊢
  exact ⟨h.1, by omega⟩

/-! ## The storage -/

namespace concurrent_hashmap

theorem length_store (m : concurrent_hashmap α) (i : Nat) (b : bucket α) :
    (m.store i b).buckets.length = m.buckets.length := by
  simp [store]

theorem getBucket_store (hash : String → Nat) (m : concurrent_hashmap α) (i : Nat)
    (b : bucket α) (key : String) :
    (m.store i b).getBucket hash key = m.getBucket hash key := by
  simp [getBucket, store]

theorem getBucket_lt (hash : String → Nat) (m : concurrent_hashmap α) (key : String)
    (h : 0 < m.buckets.length) : m.getBucket hash key < m.buckets.length :=
  Nat.mod_lt _ h

theorem bucketAt_store_same (m : concurrent_hashmap α) (i : Nat) (b : bucket α)
    (h : i < m.buckets.length) : (m.store i b).bucketAt i = b := by
  simp [bucketAt, store, List.getD_eq_getElem?_getD, List.getElem?_set, h]

theorem bucketAt_store_ne (m : concurrent_hashmap α) (i j : Nat) (b : bucket α)
    (h : i ≠ j) : (m.store i b).bucketAt j = m.bucketAt j := by
  simp [bucketAt, store, List.getD_eq_getElem?_getD, List.getElem?_set, h]

theorem store_bucketAt (m : concurrent_hashmap α) (i : Nat) :
    m.store i (m.bucketAt i) = m := by
  cases m with
  | mk bs =>
    simp only [store, bucketAt, mk.injEq]
    apply List.ext_getElem?
    intro j
    by_cases hij : i = j
    · subst hij
      by_cases hi : i < bs.length
      · simp [List.getElem?_set, hi, List.getD_eq_getElem?_getD]
      · simp [List.getElem?_set, hi]
        omega
    · simp [List.getElem?_set, hij]

end concurrent_hashmap

/-! ## The heap -/

namespace heap.Heap

theorem swap_set_perm (l : List Element) (i j : Nat) (a b : Element)
    (hi : l[i]? = some a) (hj : l[j]? = some b) : ((l.set i b).set j a).Perm l := by
  obtain ⟨hil, hia⟩ := List.getElem?_eq_some_iff.mp hi
  obtain ⟨hjl, hjb⟩ := List.getElem?_eq_some_iff.mp hj
  rw [List.perm_iff_count]
  intro x
  have hj2 : j < (l.set i b).length := by simpa using hjl
  have hget : (l.set i b)[j] = b := by
    rw [List.getElem_set]
    split
    · rfl
    · exact hjb
  rw [List.count_set a x _ j hj2, List.count_set b x l i hil, hget, hia]
  have hpos : (if (a == x) = true then 1 else 0) ≤ List.count x l := by
    split
    · rename_i hax
      have hx : x ∈ l := by
        have : a = x := by simpa using hax
        subst this
        exact hia ▸ List.getElem_mem hil
      exact List.count_pos_iff.mpr hx
    · exact Nat.zero_le _
  omega

theorem Swap_perm (h : Heap) (i j : Nat) : (h.Swap i j).Data.Perm h.Data := by
  unfold Swap
  split
  · rename_i a b hi hj
    exact swap_set_perm _ _ _ _ _ hi hj
  · exact List.Perm.refl _

theorem upLoop_perm (fuel : Nat) (h : Heap) (i : Nat) : (upLoop fuel h i).Data.Perm h.Data := by
  induction fuel generalizing h i with
  | zero => exact List.Perm.refl _
  | succ n ih =>
    unfold upLoop
    split
    · exact (ih _ _).trans (Swap_perm _ _ _)
    · exact List.Perm.refl _

theorem Up_perm (h : Heap) (i : Nat) : (h.Up i).Data.Perm h.Data :=
  upLoop_perm _ _ _

/-- The bound on the rounds of `upLoop` is immaterial once it is at least the
position sifted from. -/
theorem upLoop_fuel (n m : Nat) (h : Heap) (i : Nat) (hn : i ≤ n) (hm : i ≤ m) :
    upLoop n h i = upLoop m h i := by
  induction n generalizing m h i with
  | zero =>
    have hi : i = 0 := by omega
    subst hi
    cases m with
    | zero => rfl
    | succ m => simp [upLoop]
  | succ n ih =>
    cases m with
    | zero =>
      have hi : i = 0 := by omega
      subst hi
      simp [upLoop]
    | succ m =>
      unfold upLoop
      split
      · rename_i hc
        exact ih m _ _ (by omega) (by omega)
      · rfl

/-- Sifting up obeys the recursive description of the spec: exchange with the
parent while strictly less, then continue from the parent. -/
theorem Up_eq (h : Heap) (i : Nat) :
    h.Up i =
      if 0 < i ∧ h.Less i ((i - 1) / 2) = true then
        (h.Swap i ((i - 1) / 2)).Up ((i - 1) / 2)
      else h := by
  unfold Up
  cases i with
  | zero => simp [upLoop]
  | succ k =>
    rw [upLoop]
    split
    · exact upLoop_fuel _ _ _ _ (by omega) (le_refl _)
    · rfl

theorem Push_perm (h : Heap) (e : Element) : (h.Push e).Data.Perm (h.Data ++ [e]) :=
  Up_perm _ _

theorem mem_Push (h : Heap) (e x : Element) :
    x ∈ (h.Push e).Data ↔ x ∈ h.Data ∨ x = e := by
  rw [(Push_perm h e).mem_iff]
  simp

theorem Len_Push (h : Heap) (e : Element) : (h.Push e).Len = h.Len + 1 := by
  unfold Len
  rw [(Push_perm h e).length_eq]
  simp

end heap.Heap

namespace Config

/-- The bound on the rounds of `checkSegmentLoop` is immaterial once it is at
least the value being halved. -/
theorem checkSegmentLoop_fuel (n m segment : Nat) (hn : segment ≤ n) (hm : segment ≤ m) :
    checkSegmentLoop n segment = checkSegmentLoop m segment := by
  induction n generalizing m segment with
  | zero =>
    have hs : segment = 0 := by omega
    subst hs
    cases m <;> simp [checkSegmentLoop]
  | succ n ih =>
    cases m with
    | zero =>
      have hs : segment = 0 := by omega
      subst hs
      simp [checkSegmentLoop]
    | succ m =>
      unfold checkSegmentLoop
      split
      · split
        · rfl
        · exact ih m _ (by omega) (by omega)
      · rfl

/-- The loop of `checkSegment` obeys the recursive description of the source:
while `segment > 1`, fail on an odd value and halve otherwise. -/
theorem checkSegmentLoop_eq (segment : Nat) :
    checkSegmentLoop segment segment =
      if 1 < segment then
        if segment % 2 ≠ 0 then false
        else checkSegmentLoop (segment / 2) (segment / 2)
      else true := by
  cases segment with
  | zero => simp [checkSegmentLoop]
  | succ k =>
    rw [checkSegmentLoop]
    split
    · split
      · rfl
      · exact checkSegmentLoop_fuel _ _ _ (by omega) (le_refl _)
    · rfl

end Config

/-! ## Calls seen from the bucket -/

theorem step_eq (hash : String → Nat) (s : MemoryCache α) (now : Time) (op : Op α) :
    step hash s now op =
      ⟨s.storage.store (s.storage.getBucket hash op.key)
        (bucketStep now op (s.storage.bucketAt (s.storage.getBucket hash op.key)))⟩ := by
  cases op with
  | Set key value expire =>
    simp only [step, Set, bucketStep, Op.key]
    split <;> rfl
  | Delete key => rfl
  | Expire key d =>
    simp only [step, Expire, bucketStep, Op.key]
    split
    · rw [concurrent_hashmap.store_bucketAt]
    · split
      · split <;> rfl
      · rw [concurrent_hashmap.store_bucketAt]

theorem length_step (hash : String → Nat) (s : MemoryCache α) (now : Time) (op : Op α) :
    (step hash s now op).storage.buckets.length = s.storage.buckets.length := by
  rw [step_eq]
  exact concurrent_hashmap.length_store _ _ _

theorem length_run (hash : String → Nat) (s : MemoryCache α) (ops : List (Time × Op α)) :
    (run hash s ops).storage.buckets.length = s.storage.buckets.length := by
  induction ops generalizing s with
  | nil => rfl
  | cons o ops ih =>
    simp only [run, List.foldl_cons] at ih ⊢
    rw [ih, length_step]

theorem run_cons (hash : String → Nat) (s : MemoryCache α) (o : Time × Op α)
    (ops : List (Time × Op α)) :
    run hash s (o :: ops) = run hash (step hash s o.1 o.2) ops := rfl

/-- The bucket at index `j` after a call: the bucket the key routes to is
transformed by `bucketStep`, every other bucket is untouched. -/
theorem bucketAt_step (hash : String → Nat) (s : MemoryCache α) (now : Time) (op : Op α)
    (j : Nat) (hpos : 0 < s.storage.buckets.length) :
    (step hash s now op).storage.bucketAt j =
      if s.storage.getBucket hash op.key = j then bucketStep now op (s.storage.bucketAt j)
      else s.storage.bucketAt j := by
  rw [step_eq]
  split
  · rename_i h
    subst h
    exact concurrent_hashmap.bucketAt_store_same _ _ _
      (concurrent_hashmap.getBucket_lt hash _ _ hpos)
  · rename_i h
    exact concurrent_hashmap.bucketAt_store_ne _ _ _ _ h

theorem New_length (config : List Config) (s : MemoryCache α) (h : New config = some s) :
    0 < s.storage.buckets.length ∧
      ∀ i, s.storage.bucketAt i = bucket.empty := by
  unfold New at h
  simp only at h
  split at h
  · rename_i hc
    simp only [Option.some.injEq] at h
    subst h
    constructor
    · simp only [concurrent_hashmap.newConcurrentHashmap, List.length_replicate]
      unfold Config.checkSegment at hc
      split at hc
      · exact absurd hc (by simp)
      · omega
    · intro i
      simp only [concurrent_hashmap.bucketAt, concurrent_hashmap.newConcurrentHashmap,
        List.getD_eq_getElem?_getD, List.getElem?_replicate]
      split <;> rfl
  · exact absurd h (by simp)

theorem Reachable.length_pos {hash : String → Nat} {s : MemoryCache α}
    (h : Reachable hash s) : 0 < s.storage.buckets.length := by
  induction h with
  | New config s h => exact (New_length config s h).1
  | step s now op _ ih => rw [length_step]; exact ih

/-- A property of buckets that holds of the empty bucket and is kept by every call
on a key routed to the bucket holds of every bucket of every reachable state. -/
theorem Reachable.forall_bucket {hash : String → Nat} (P : Nat → Nat → bucket α → Prop)
    (h0 : ∀ n i, P n i bucket.empty)
    (hstep : ∀ n i b now (op : Op α), hash op.key % n = i → P n i b →
      P n i (bucketStep now op b))
    {s : MemoryCache α} (h : Reachable hash s) (i : Nat) :
    P s.storage.buckets.length i (s.storage.bucketAt i) := by
  induction h generalizing i with
  | New config s h =>
    rw [(New_length config s h).2 i]
    exact h0 _ _
  | step s now op hr ih =>
    rw [length_step, bucketAt_step hash s now op i hr.length_pos]
    split
    · rename_i hi
      exact hstep _ _ _ _ _ hi (ih i)
    · exact ih i

/-! ## The stored entry of a key -/

theorem Get_fst (hash : String → Nat) (s : MemoryCache α) (now : Time) (k : String) :
    (Get hash s now k).1 =
      match stored hash s k with
      | none => (none, false)
      | some e => if valid now e.ExpireAt = true then (e.Value, true) else (none, false) := by
  unfold Get stored
  simp only
  split
  · rename_i h
    simp [h]
  · rename_i e h
    cases valid now e.ExpireAt <;> rfl

theorem Get_snd (hash : String → Nat) (s : MemoryCache α) (now : Time) (k : String) :
    (Get hash s now k).2 = s := by
  unfold Get
  simp only
  split
  · rfl
  · split <;> rfl

theorem stored_of_length_zero (hash : String → Nat) (s : MemoryCache α) (k : String)
    (h : s.storage.buckets.length = 0) : stored hash s k = none := by
  have hnil : s.storage.buckets = [] := List.length_eq_zero.mp h
  simp [stored, concurrent_hashmap.bucketAt, hnil, bucket.empty]

theorem stored_pos {hash : String → Nat} {s : MemoryCache α} {k : String} {e : element α}
    (h : stored hash s k = some e) : 0 < s.storage.buckets.length := by
  by_contra hc
  rw [stored_of_length_zero hash s k (by omega)] at h
  exact absurd h (by simp)

theorem step_of_length_zero (hash : String → Nat) (s : MemoryCache α) (now : Time)
    (op : Op α) (h : s.storage.buckets.length = 0) : step hash s now op = s := by
  have hnil : s.storage.buckets = [] := List.length_eq_zero.mp h
  rw [step_eq]
  cases s with
  | mk st =>
    cases st with
    | mk bs =>
      simp only at hnil
      subst hnil
      rfl

theorem getBucket_step (hash : String → Nat) (s : MemoryCache α) (now : Time) (op : Op α)
    (k : String) :
    (step hash s now op).storage.getBucket hash k = s.storage.getBucket hash k := by
  simp [concurrent_hashmap.getBucket, length_step]

theorem stored_step (hash : String → Nat) (s : MemoryCache α) (now : Time) (op : Op α)
    (k : String) (hpos : 0 < s.storage.buckets.length) :
    stored hash (step hash s now op) k =
      if s.storage.getBucket hash op.key = s.storage.getBucket hash k then
        (bucketStep now op (s.storage.bucketAt (s.storage.getBucket hash k))).data.lookup k
      else stored hash s k := by
  unfold stored
  rw [getBucket_step, bucketAt_step hash s now op _ hpos]
  split <;> rfl

theorem lookup_bucketStep_ne (now : Time) (op : Op α) (b : bucket α) (k : String)
    (h : op.key ≠ k) : (bucketStep now op b).data.lookup k = b.data.lookup k := by
  have h2 : k ≠ op.key := fun h3 => h h3.symm
  cases op with
  | Set key value expire => exact AList.lookup_insert_ne h2
  | Delete key => exact AList.lookup_erase_ne h2
  | Expire key d =>
    simp only [bucketStep]
    split
    · rfl
    · split
      · exact AList.lookup_insert_ne h2
      · rfl

/-- Frame: a call on another key leaves the stored entry of `k` as it was. -/
theorem stored_step_ne (hash : String → Nat) (s : MemoryCache α) (now : Time) (op : Op α)
    (k : String) (h : op.key ≠ k) : stored hash (step hash s now op) k = stored hash s k := by
  by_cases hpos : 0 < s.storage.buckets.length
  · rw [stored_step hash s now op k hpos]
    split
    · rw [lookup_bucketStep_ne now op _ k h]
      rfl
    · rfl
  · rw [step_of_length_zero hash s now op (by omega)]

theorem stored_run_ne (hash : String → Nat) (s : MemoryCache α) (ops : List (Time × Op α))
    (k : String) (h : ∀ o ∈ ops, o.2.key ≠ k) : stored hash (run hash s ops) k = stored hash s k := by
  induction ops generalizing s with
  | nil => rfl
  | cons o ops ih =>
    rw [run_cons, ih _ (fun o' ho' => h o' (List.mem_cons_of_mem _ ho')),
      stored_step_ne hash s o.1 o.2 k (h o (List.mem_cons_self _ _))]

theorem stored_Set_same (hash : String → Nat) (s : MemoryCache α) (now : Time) (k : String)
    (v : Option α) (expire : List Duration) (hpos : 0 < s.storage.buckets.length) :
    stored hash (Set hash s now k v expire) k =
      some { Value := v, ExpireAt := getExp now expire } := by
  have h := stored_step hash s now (Op.Set k v expire) k hpos
  simp only [step, Op.key, if_true, bucketStep] at h
  rw [h]
  exact AList.lookup_insert _

theorem stored_Delete_same (hash : String → Nat) (s : MemoryCache α) (k : String) :
    stored hash (Delete hash s k) k = none := by
  by_cases hpos : 0 < s.storage.buckets.length
  · have h := stored_step hash s 0 (Op.Delete k) k hpos
    simp only [step, Op.key, if_true, bucketStep] at h
    rw [h]
    exact AList.lookup_erase _ _
  · have h := step_of_length_zero hash s 0 (Op.Delete k) (by omega)
    simp only [step] at h
    rw [h]
    exact stored_of_length_zero hash s k (by omega)

theorem stored_Expire_same (hash : String → Nat) (s : MemoryCache α) (now : Time)
    (k : String) (d : Duration) :
    stored hash (Expire hash s now k d) k =
      match stored hash s k with
      | none => none
      | some e =>
        if valid now e.ExpireAt = true then
          some { Value := e.Value, ExpireAt := getExp now [d] }
        else some e := by
  by_cases hpos : 0 < s.storage.buckets.length
  · have h := stored_step hash s now (Op.Expire k d) k hpos
    simp only [step, Op.key, if_true, bucketStep] at h
    rw [h]
    unfold stored
    split
    · rename_i hn
      simp [hn]
    · rename_i e he
      split
      · exact AList.lookup_insert _
      · exact he
  · have h := step_of_length_zero hash s now (Op.Expire k d) (by omega)
    simp only [step] at h
    rw [h, stored_of_length_zero hash s k (by omega)]

/-- An absent key stays absent under every call that is not a `Set` of it. -/
theorem stored_step_none (hash : String → Nat) (s : MemoryCache α) (now : Time) (op : Op α)
    (k : String) (hs : stored hash s k = none) (hop : op.isSetOf k = false) :
    stored hash (step hash s now op) k = none := by
  by_cases hk : op.key = k
  · cases op with
    | Set key value expire =>
      simp only [Op.key] at hk
      simp [Op.isSetOf, hk] at hop
    | Delete key =>
      simp only [Op.key] at hk
      subst hk
      exact stored_Delete_same hash s key
    | Expire key d =>
      simp only [Op.key] at hk
      subst hk
      simp only [step]
      rw [stored_Expire_same, hs]
  · rw [stored_step_ne hash s now op k hk, hs]

theorem stored_run_none (hash : String → Nat) (s : MemoryCache α) (ops : List (Time × Op α))
    (k : String) (hs : stored hash s k = none) (hops : ∀ o ∈ ops, o.2.isSetOf k = false) :
    stored hash (run hash s ops) k = none := by
  induction ops generalizing s with
  | nil => exact hs
  | cons o ops ih =>
    rw [run_cons]
    exact ih _ (stored_step_none hash s o.1 o.2 k hs (hops o (List.mem_cons_self _ _)))
      (fun o' ho' => hops o' (List.mem_cons_of_mem _ ho'))

/-! ## `Keys` -/

theorem foldl_liveKeys (now : Time) (l : List (Sigma fun _ : String => element α))
    (arr : List String) :
    l.foldl (fun arr kv => if valid now kv.2.ExpireAt then arr ++ [kv.1] else arr) arr =
      arr ++ (l.filter (fun kv => valid now kv.2.ExpireAt)).map (fun kv => kv.1) := by
  induction l generalizing arr with
  | nil => simp
  | cons kv l ih =>
    rw [List.foldl_cons, ih]
    by_cases hv : valid now kv.2.ExpireAt = true
    · simp [hv, List.filter_cons]
    · simp [hv, List.filter_cons]

theorem foldl_Keys (now : Time) (bs : List (bucket α)) (arr : List String) :
    bs.foldl
        (fun arr bucket =>
          bucket.data.entries.foldl
            (fun arr kv => if valid now kv.2.ExpireAt then arr ++ [kv.1] else arr) arr)
        arr =
      arr ++ bs.flatMap (liveKeys now) := by
  induction bs generalizing arr with
  | nil => simp
  | cons b bs ih =>
    rw [List.foldl_cons, ih, foldl_liveKeys]
    simp [liveKeys, List.flatMap_cons]

/-- `Keys` lists, bucket after bucket, the keys whose entry is valid. -/
theorem Keys_eq (s : MemoryCache α) (now : Time) :
    Keys s now = s.storage.buckets.flatMap (liveKeys now) := by
  unfold Keys
  rw [foldl_Keys]
  simp

theorem mem_liveKeys (now : Time) (b : bucket α) (k : String) :
    k ∈ liveKeys now b ↔ ∃ e, b.data.lookup k = some e ∧ valid now e.ExpireAt = true := by
  unfold liveKeys
  simp only [List.mem_map, List.mem_filter]
  constructor
  · rintro ⟨⟨k', e⟩, ⟨hmem, hv⟩, rfl⟩
    exact ⟨e, Option.mem_def.mp (AList.mem_lookup_iff.mpr hmem), hv⟩
  · rintro ⟨e, hl, hv⟩
    exact ⟨⟨k, e⟩, ⟨AList.mem_lookup_iff.mp (Option.mem_def.mpr hl), hv⟩, rfl⟩

theorem liveKeys_sublist (now : Time) (b : bucket α) :
    (liveKeys now b).Sublist b.data.keys := by
  unfold liveKeys AList.keys List.keys
  exact (List.filter_sublist _).map _

theorem liveKeys_nodup (now : Time) (b : bucket α) : (liveKeys now b).Nodup :=
  (liveKeys_sublist now b).nodup b.data.keys_nodup

theorem mem_keys_of_mem_liveKeys {now : Time} {b : bucket α} {k : String}
    (h : k ∈ liveKeys now b) : k ∈ b.data.keys :=
  (liveKeys_sublist now b).subset h

theorem bucketAt_eq_getElem (m : concurrent_hashmap α) (i : Nat) (h : i < m.buckets.length) :
    m.bucketAt i = m.buckets[i] := by
  simp [concurrent_hashmap.bucketAt, List.getD_eq_getElem?_getD, h]

/-! ## Invariants of reachable states -/

theorem mem_keys_bucketStep (now : Time) (op : Op α) (b : bucket α) (k : String)
    (h : k ∈ (bucketStep now op b).data.keys) : k = op.key ∨ k ∈ b.data.keys := by
  cases op with
  | Set key value expire =>
    simp only [bucketStep, ← AList.mem_keys, AList.mem_insert] at h
    exact h.imp id AList.mem_keys.mp
  | Delete key =>
    simp only [bucketStep, ← AList.mem_keys, AList.mem_erase] at h
    exact Or.inr (AList.mem_keys.mp h.2)
  | Expire key d =>
    simp only [bucketStep] at h
    split at h
    · exact Or.inr h
    · split at h
      · simp only [← AList.mem_keys, AList.mem_insert] at h
        exact h.imp id AList.mem_keys.mp
      · exact Or.inr h

/-- The heap after a call holds what it held before and at most one new element,
which carries the key of the call and an `ExpireAt` other than `-1`. -/
theorem mem_ttl_bucketStep (now : Time) (op : Op α) (b : bucket α) (x : heap.Element)
    (h : x ∈ (bucketStep now op b).ttl.Data) :
    x ∈ b.ttl.Data ∨ (x.Key = op.key ∧ x.ExpireAt ≠ -1) := by
  cases op with
  | Set key value expire =>
    simp only [bucketStep] at h
    split at h
    · rename_i hne
      rcases (heap.Heap.mem_Push _ _ _).mp h with h | h
      · exact Or.inl h
      · subst h
        exact Or.inr ⟨rfl, hne⟩
    · exact Or.inl h
  | Delete key => exact Or.inl h
  | Expire key d =>
    simp only [bucketStep] at h
    split at h
    · exact Or.inl h
    · split at h
      · simp only at h
        split at h
        · rename_i hne
          rcases (heap.Heap.mem_Push _ _ _).mp h with h | h
          · exact Or.inl h
          · subst h
            exact Or.inr ⟨rfl, hne⟩
        · exact Or.inl h
      · exact Or.inl h

/-- The heap never loses an element in a call. -/
theorem ttl_subset_bucketStep (now : Time) (op : Op α) (b : bucket α) (x : heap.Element)
    (h : x ∈ b.ttl.Data) : x ∈ (bucketStep now op b).ttl.Data := by
  cases op with
  | Set key value expire =>
    simp only [bucketStep]
    split
    · exact (heap.Heap.mem_Push _ _ _).mpr (Or.inl h)
    · exact h
  | Delete key => exact h
  | Expire key d =>
    simp only [bucketStep]
    split
    · exact h
    · split
      · simp only
        split
        · exact (heap.Heap.mem_Push _ _ _).mpr (Or.inl h)
        · exact h
      · exact h

theorem Reachable.routed {hash : String → Nat} {s : MemoryCache α} (h : Reachable hash s)
    (i : Nat) : Routed hash s.storage.buckets.length i (s.storage.bucketAt i) := by
  refine Reachable.forall_bucket (fun n i b => Routed hash n i b) ?_ ?_ h i
  · intro n i
    exact ⟨fun k hk => absurd hk (by simp [bucket.empty]),
      fun x hx => absurd hx (by simp [bucket.empty, heap.Heap.empty])⟩
  · intro n i b now op hop hb
    refine ⟨fun k hk => ?_, fun x hx => ?_⟩
    · rcases mem_keys_bucketStep now op b k hk with h1 | h1
      · rw [h1]; exact hop
      · exact hb.1 k h1
    · rcases mem_ttl_bucketStep now op b x hx with h1 | h1
      · exact hb.2 x h1
      · rw [h1.1]; exact hop

theorem Reachable.heapMortal {hash : String → Nat} {s : MemoryCache α} (h : Reachable hash s)
    (i : Nat) : HeapMortal (s.storage.bucketAt i) := by
  refine Reachable.forall_bucket (fun _ _ b => HeapMortal b) ?_ ?_ h i
  · intro n i x hx
    exact absurd hx (by simp [bucket.empty, heap.Heap.empty])
  · intro n i b now op _ hb x hx
    rcases mem_ttl_bucketStep now op b x hx with h1 | h1
    · exact hb x h1
    · exact h1.2

theorem mortalTracked_bucketStep (now : Time) (op : Op α) (b : bucket α)
    (hb : MortalTracked b) : MortalTracked (bucketStep now op b) := by
  intro k e hl hne
  by_cases hk : op.key = k
  · cases op with
    | Set key value expire =>
      simp only [Op.key] at hk
      subst hk
      simp only [bucketStep, AList.lookup_insert, Option.some.injEq] at hl ⊢
      subst hl
      simp only at hne ⊢
      rw [if_pos hne]
      exact (heap.Heap.mem_Push _ _ _).mpr (Or.inr rfl)
    | Delete key =>
      simp only [Op.key] at hk
      subst hk
      simp only [bucketStep, AList.lookup_erase] at hl
      exact absurd hl (by simp)
    | Expire key d =>
      simp only [Op.key] at hk
      subst hk
      simp only [bucketStep] at hl ⊢
      cases hr : AList.lookup key b.data with
      | none =>
        simp only [hr] at hl
        exact absurd hl (by simp)
      | some r =>
        simp only [hr] at hl ⊢
        by_cases hv : valid now r.ExpireAt = true
        · simp only [hv, if_true, AList.lookup_insert, Option.some.injEq] at hl ⊢
          subst hl
          simp only at hne ⊢
          rw [if_pos hne]
          exact (heap.Heap.mem_Push _ _ _).mpr (Or.inr rfl)
        · simp only [hv, Bool.false_eq_true, if_false] at hl ⊢
          rw [hr] at hl
          simp only [Option.some.injEq] at hl
          subst hl
          exact hb _ _ hr hne
  · rw [lookup_bucketStep_ne now op b k hk] at hl
    exact ttl_subset_bucketStep now op b _ (hb k e hl hne)

theorem Reachable.mortalTracked {hash : String → Nat} {s : MemoryCache α}
    (h : Reachable hash s) (i : Nat) : MortalTracked (s.storage.bucketAt i) := by
  refine Reachable.forall_bucket (fun _ _ b => MortalTracked b) ?_ ?_ h i
  · intro n i k e hl
    simp [bucket.empty] at hl
  · intro n i b now op _ hb
    exact mortalTracked_bucketStep now op b hb

/-- In a reachable state a key is listed by `Keys` exactly when its stored entry
is valid. -/
theorem mem_Keys_iff {hash : String → Nat} {s : MemoryCache α} (h : Reachable hash s)
    (now : Time) (k : String) :
    k ∈ Keys s now ↔ ∃ e, stored hash s k = some e ∧ valid now e.ExpireAt = true := by
  rw [Keys_eq, List.mem_flatMap]
  constructor
  · rintro ⟨b, hb, hk⟩
    obtain ⟨i, hi, rfl⟩ := List.getElem_of_mem hb
    have hr := (h.routed i).1 k
    rw [bucketAt_eq_getElem _ i hi] at hr
    have hroute := hr (mem_keys_of_mem_liveKeys hk)
    obtain ⟨e, hl, hv⟩ := (mem_liveKeys now _ k).mp hk
    refine ⟨e, ?_, hv⟩
    unfold stored concurrent_hashmap.getBucket
    rw [hroute, bucketAt_eq_getElem _ i hi]
    exact hl
  · rintro ⟨e, hs, hv⟩
    have hpos := stored_pos hs
    have hlt := concurrent_hashmap.getBucket_lt hash s.storage k hpos
    refine ⟨s.storage.buckets[s.storage.getBucket hash k], List.getElem_mem _, ?_⟩
    rw [mem_liveKeys]
    refine ⟨e, ?_, hv⟩
    rw [← bucketAt_eq_getElem _ _ hlt]
    exact hs

/-- In a reachable state `Keys` lists no key twice. -/
theorem Keys_nodup {hash : String → Nat} {s : MemoryCache α} (h : Reachable hash s)
    (now : Time) : (Keys s now).Nodup := by
  rw [Keys_eq, List.nodup_flatMap]
  refine ⟨fun b _ => liveKeys_nodup now b, ?_⟩
  rw [List.pairwise_iff_getElem]
  intro i j hi hj hij
  simp only [Function.onFun]
  rw [List.disjoint_left]
  intro k hki hkj
  have h1 := (h.routed i).1 k
  rw [bucketAt_eq_getElem _ i hi] at h1
  have h2 := (h.routed j).1 k
  rw [bucketAt_eq_getElem _ j hj] at h2
  have e1 := h1 (mem_keys_of_mem_liveKeys hki)
  have e2 := h2 (mem_keys_of_mem_liveKeys hkj)
  omega

theorem Reachable.run {hash : String → Nat} {s : MemoryCache α} (h : Reachable hash s)
    (ops : List (Time × Op α)) : Reachable hash (run hash s ops) := by
  induction ops generalizing s with
  | nil => exact h
  | cons o ops ih =>
    rw [run_cons]
    exact ih (Reachable.step s o.1 o.2 h)

theorem Get_of_stored (hash : String → Nat) (s : MemoryCache α) (now : Time) (k : String)
    (e : element α) (h : stored hash s k = some e) (hne : e.ExpireAt ≠ -1) :
    (Get hash s now k).1 =
      if e.ExpireAt > UnixMilli (now : Int) then (e.Value, true) else (none, false) := by
  rw [Get_fst, h]
  simp only [valid_of_ne hne, decide_eq_true_eq, gt_iff_lt]

theorem Get_of_stored_none (hash : String → Nat) (s : MemoryCache α) (now : Time) (k : String)
    (h : stored hash s k = none) : (Get hash s now k).1 = (none, false) := by
  rw [Get_fst, h]

theorem Delete_of_not_stored (hash : String → Nat) (s : MemoryCache α) (k : String)
    (h : stored hash s k = none) : Delete hash s k = s := by
  have h1 := step_eq hash s 0 (Op.Delete k)
  simp only [step, Op.key, bucketStep] at h1
  rw [h1]
  have h2 : (s.storage.bucketAt (s.storage.getBucket hash k)).data.erase k =
      (s.storage.bucketAt (s.storage.getBucket hash k)).data := by
    apply AList.ext
    simp only [AList.erase]
    apply List.kerase_of_not_mem_keys
    exact AList.lookup_eq_none.mp h
  rw [h2, concurrent_hashmap.store_bucketAt]

theorem Expire_of_not_valid (hash : String → Nat) (s : MemoryCache α) (now : Time)
    (k : String) (d : Duration)
    (h : stored hash s k = none ∨ ∃ e, stored hash s k = some e ∧ valid now e.ExpireAt = false) :
    Expire hash s now k d = s := by
  unfold stored at h
  unfold Expire
  simp only
  rcases h with h | ⟨e, h, hv⟩
  · rw [h]
  · rw [h]
    simp [hv]

/-! ## The cache contract -/

/-- C1. `Set` followed by `Get` obeys the TTL, last write wins: in every reachable
state `s`, after `Set(k, v, ttl)` with `ttl > 0` at clock reading `t` (whatever was
stored for `k` before) and any later calls on other keys, `Get(k)` at any clock
reading `t'` (in particular any `t' ≥ t`) returns `(v, true)` exactly when the
millisecond of `t + ttl` is strictly greater than the millisecond of `t'`, and
`(nil, false)` otherwise. -/
theorem Set_then_Get (hash : String → Nat) (s : MemoryCache α) (hs : Reachable hash s)
    (k : String) (v : Option α) (ttl : Duration) (httl : 0 < ttl) (t t' : Time)
    (ops : List (Time × Op α)) (hops : ∀ o ∈ ops, o.2.key ≠ k) :
    (Get hash (run hash (Set hash s t k v [ttl]) ops) t' k).1 =
      if UnixMilli (Add t ttl) > UnixMilli (t' : Int) then (v, true) else (none, false) := by
  have h1 : stored hash (run hash (Set hash s t k v [ttl]) ops) k =
      some { Value := v, ExpireAt := UnixMilli (Add t ttl) } := by
    rw [stored_run_ne hash _ ops k hops, stored_Set_same hash s t k v [ttl] hs.length_pos,
      getExp_of_nonneg t ttl [] (le_of_lt httl)]
  exact Get_of_stored hash _ t' k _ h1 (UnixMilli_Add_ne t ttl (le_of_lt httl))

/-- C3. An expired lookup is a miss even when nothing has swept the entry: whenever
`k` is stored with a finite `ExpireAt` that is at most the millisecond of `now`,
`Get(k)` returns `(nil, false)`; and `Get` leaves the whole cache, mappings and
heaps, as it was. -/
theorem Get_expired_is_miss (hash : String → Nat) (s : MemoryCache α) (now : Time)
    (k : String) :
    (∀ e, stored hash s k = some e → e.ExpireAt ≠ -1 → e.ExpireAt ≤ UnixMilli (now : Int) →
        (Get hash s now k).1 = (none, false)) ∧
      (Get hash s now k).2 = s := by
  refine ⟨fun e he hne hle => ?_, Get_snd hash s now k⟩
  rw [Get_of_stored hash s now k e he hne, if_neg (not_lt.mpr hle)]

/-- C4. `Keys` returns exactly the live keys: in every state reachable from `New`
by `Set`, `Delete` and `Expire`, at every clock reading `t`, a key occurs in
`Keys()` if and only if `Get` of it at `t` reports found, and no key occurs in
`Keys()` more than once. -/
theorem Keys_exactly_live (hash : String → Nat) (s : MemoryCache α) (hs : Reachable hash s)
    (t : Time) :
    (∀ k, k ∈ Keys s t ↔ (Get hash s t k).1.2 = true) ∧ (Keys s t).Nodup := by
  refine ⟨fun k => ?_, Keys_nodup hs t⟩
  rw [mem_Keys_iff hs t k, Get_fst]
  constructor
  · rintro ⟨e, he, hv⟩
    simp [he, hv]
  · intro h
    cases he : stored hash s k with
    | none => simp [he] at h
    | some e =>
      refine ⟨e, rfl, ?_⟩
      by_contra hv
      simp [he, hv] at h

/-- C5. `Delete` removes the key: after `Delete(k)` the key is absent from the
mapping of its bucket; after any later calls none of which is a `Set` of `k`,
`Get(k)` returns `(nil, false)` at every clock reading and, the state being
reachable, `Keys()` does not contain `k`; and `Delete` of a key that is not stored
leaves the cache unchanged. -/
theorem Delete_removes (hash : String → Nat) (s : MemoryCache α) (k : String) :
    stored hash (Delete hash s k) k = none ∧
      (∀ (ops : List (Time × Op α)), (∀ o ∈ ops, o.2.isSetOf k = false) → ∀ t' : Time,
        (Get hash (run hash (Delete hash s k) ops) t' k).1 = (none, false) ∧
          (Reachable hash s → k ∉ Keys (run hash (Delete hash s k) ops) t')) ∧
      (stored hash s k = none → Delete hash s k = s) := by
  refine ⟨stored_Delete_same hash s k, fun ops hops t' => ?_, Delete_of_not_stored hash s k⟩
  have hnone := stored_run_none hash _ ops k (stored_Delete_same hash s k) hops
  refine ⟨Get_of_stored_none hash _ t' k hnone, fun hs hmem => ?_⟩
  have hr : Reachable hash (run hash (Delete hash s k) ops) :=
    Reachable.run (Reachable.step s 0 (Op.Delete k) hs) ops
  obtain ⟨e, he, _⟩ := (mem_Keys_iff hr t' k).mp hmem
  rw [hnone] at he
  exact absurd he (by simp)

/-- C7. TTL refresh extends a live entry: when `k` is stored with value `v` and is
still alive at clock reading `t`, then for every `d > 0` after `Expire(k, d)` at `t`
the stored value is still `v` and the stored expiry is the millisecond of `t + d`,
so that (after any later calls on other keys) `Get(k)` at `t'` returns `(v, true)`
exactly while that new expiry is greater than the millisecond of `t'`, whatever the
previous expiry was. -/
theorem Expire_refreshes (hash : String → Nat) (s : MemoryCache α) (k : String)
    (e : element α) (hst : stored hash s k = some e) (t : Time)
    (halive : e.ExpireAt = -1 ∨ UnixMilli (t : Int) < e.ExpireAt) (d : Duration) (hd : 0 < d) :
    stored hash (Expire hash s t k d) k =
        some { Value := e.Value, ExpireAt := UnixMilli (Add t d) } ∧
      ∀ (ops : List (Time × Op α)), (∀ o ∈ ops, o.2.key ≠ k) → ∀ t' : Time,
        (Get hash (run hash (Expire hash s t k d) ops) t' k).1 =
          if UnixMilli (Add t d) > UnixMilli (t' : Int) then (e.Value, true)
          else (none, false) := by
  have hv : valid t e.ExpireAt = true := (valid_iff t e.ExpireAt).mpr halive
  have h1 : stored hash (Expire hash s t k d) k =
      some { Value := e.Value, ExpireAt := UnixMilli (Add t d) } := by
    rw [stored_Expire_same, hst]
    simp only [hv, if_true, getExp_of_nonneg t d [] (le_of_lt hd)]
  refine ⟨h1, fun ops hops t' => ?_⟩
  have h2 : stored hash (run hash (Expire hash s t k d) ops) k =
      some { Value := e.Value, ExpireAt := UnixMilli (Add t d) } := by
    rw [stored_run_ne hash _ ops k hops, h1]
  exact Get_of_stored hash _ t' k _ h2 (UnixMilli_Add_ne t d (le_of_lt hd))

/-- C8. TTL refresh never creates or resurrects an entry: if `k` is not stored, or
its stored entry is already expired at clock reading `t` (a finite `ExpireAt` at
most the millisecond of `t`), then `Expire(k, d)` at `t`, for every duration `d` of
either sign, leaves the whole cache (mappings and heaps) exactly unchanged, and a
following `Get(k)` at any `t' ≥ t` returns `(nil, false)`. -/
theorem Expire_never_resurrects (hash : String → Nat) (s : MemoryCache α) (k : String)
    (t : Time) (d : Duration)
    (h : stored hash s k = none ∨
      ∃ e, stored hash s k = some e ∧ e.ExpireAt ≠ -1 ∧ e.ExpireAt ≤ UnixMilli (t : Int)) :
    Expire hash s t k d = s ∧
      ∀ t' : Time, t ≤ t' → (Get hash (Expire hash s t k d) t' k).1 = (none, false) := by
  have h' : stored hash s k = none ∨
      ∃ e, stored hash s k = some e ∧ valid t e.ExpireAt = false := by
    rcases h with h | ⟨e, he, hne, hle⟩
    · exact Or.inl h
    · refine Or.inr ⟨e, he, ?_⟩
      rw [valid_of_ne hne]
      exact decide_eq_false (not_lt.mpr hle)
  have heq := Expire_of_not_valid hash s t k d h'
  refine ⟨heq, fun t' htt => ?_⟩
  rw [heq, Get_fst]
  rcases h' with h' | ⟨e, he, hv⟩
  · rw [h']
  · rw [he]
    simp [valid_false_mono hv htt]

/-! ## The heap of a bucket -/

theorem heaps_store (m : concurrent_hashmap α) (i : Nat) (b : bucket α)
    (h : b.ttl = (m.bucketAt i).ttl) :
    (m.store i b).buckets.map (fun b => b.ttl) = m.buckets.map (fun b => b.ttl) := by
  apply List.ext_getElem?
  intro j
  simp only [concurrent_hashmap.store, List.getElem?_map, List.getElem?_set]
  by_cases hij : i = j
  · subst hij
    by_cases hi : i < m.buckets.length
    · simp [hi, h, concurrent_hashmap.bucketAt, List.getD_eq_getElem?_getD]
    · rw [List.getElem?_eq_none (by omega)]
      simp [hi]
  · simp [hij]

theorem heaps_step (hash : String → Nat) (s : MemoryCache α) (now : Time) (op : Op α)
    (h : ∀ b : bucket α, (bucketStep now op b).ttl = b.ttl) :
    heaps (step hash s now op) = heaps s := by
  rw [step_eq]
  exact heaps_store _ _ _ (h _)

theorem cache2_reachable : Reachable lenHash cache2 :=
  Reachable.New [⟨0, 0, 2⟩] cache2 rfl

/-- With a ttl of exactly 0, `Set` stores the current millisecond, which is not the
sentinel, and every `Get` from then on is a miss. -/
theorem Set_zero_ttl_stores_now (hash : String → Nat) (s : MemoryCache α)
    (hs : Reachable hash s) (k : String) (v : Option α) (t t' : Time) (htt : t ≤ t') :
    stored hash (Set hash s t k v [0]) k =
        some { Value := v, ExpireAt := UnixMilli (t : Int) } ∧
      UnixMilli (t : Int) ≠ -1 ∧
      (Get hash (Set hash s t k v [0]) t' k).1 = (none, false) := by
  have hst : stored hash (Set hash s t k v [0]) k =
      some { Value := v, ExpireAt := UnixMilli (t : Int) } := by
    rw [stored_Set_same hash s t k v [0] hs.length_pos, getExp_of_nonneg t 0 [] (le_refl _)]
    simp [Add]
  have hne : UnixMilli (t : Int) ≠ -1 := by
    have h := UnixMilli_Add_ne t 0 (le_refl _)
    simpa [Add] using h
  refine ⟨hst, hne, ?_⟩
  rw [Get_of_stored hash _ t' k _ hst hne]
  have hm : UnixMilli (t : Int) ≤ UnixMilli (t' : Int) := UnixMilli_mono (by exact_mod_cast htt)
  exact if_neg (not_lt.mpr hm)

/-- Evaluation for C2. `Set("a", 1, 0)` at clock reading 1 ms on a fresh
two-bucket cache stores `ExpireAt = 1` (the current millisecond, not the sentinel
`-1`), pushes the element onto the heap of the bucket, and `Get("a")` at the same
clock reading and at a later one is a miss. -/
theorem Set_zero_ttl_expires_at_once :
    stored lenHash (Set lenHash cache2 1000000 "a" (some 1) [0]) "a" =
        some { Value := some 1, ExpireAt := 1 } ∧
      heaps (Set lenHash cache2 1000000 "a" (some 1) [0]) =
        [⟨[]⟩, ⟨[{ Key := "a", ExpireAt := 1 }]⟩] ∧
      (Get lenHash (Set lenHash cache2 1000000 "a" (some 1) [0]) 1000000 "a").1 =
        (none, false) ∧
      (Get lenHash (Set lenHash cache2 1000000 "a" (some 1) [0]) 5000000 "a").1 =
        (none, false) := by
  decide

/-- C9, as stated, fails: after `Set("a", 1, 1ms)` and `Set("a", 1, 2ms)` on a fresh
two-bucket cache, the key `a` has two heap elements and the element `(a, 1)` no
longer agrees with the stored `ExpireAt = 2`; after `Set("a", 1, 1ms)` and
`Delete("a")` the heap still holds `(a, 1)` while `a` is not stored. So neither half
of the agreement holds in every reachable state, and the agreement is not an
invariant. -/
theorem heap_agreement_fails :
    (Reachable lenHash cacheReSet ∧ ¬ HeapExactlyOnce (cacheReSet.storage.bucketAt 1)) ∧
      (Reachable lenHash cacheSetDelete ∧
        ¬ HeapEntriesStored (cacheSetDelete.storage.bucketAt 1)) ∧
      ¬ (∀ s : MemoryCache Nat, Reachable lenHash s →
          ∀ i, i < s.storage.buckets.length → HeapAgrees (s.storage.bucketAt i)) := by
  have h1 : ¬ HeapExactlyOnce (cacheReSet.storage.bucketAt 1) := by
    intro h
    have h1 := h "a" { Value := some 1, ExpireAt := 2 } (by decide) (by decide)
    revert h1
    decide
  have h2 : ¬ HeapEntriesStored (cacheSetDelete.storage.bucketAt 1) := by
    intro h
    obtain ⟨e, he, _⟩ := h { Key := "a", ExpireAt := 1 } (by decide)
    revert he
    have hnone : (cacheSetDelete.storage.bucketAt 1).data.lookup "a" = none := by decide
    rw [hnone]
    simp
  exact ⟨⟨Reachable.run cache2_reachable _, h1⟩, ⟨Reachable.run cache2_reachable _, h2⟩,
    fun h => h1 (h cacheReSet (Reachable.run cache2_reachable _) 1 (by decide)).1⟩

/-- C9, amended. In every state reachable from `New` by `Set`, `Delete` and
`Expire`, in each bucket every key whose mapping entry is mortal has at least one
element in the heap of that bucket carrying the key and the entry's `ExpireAt`, and
the key of every heap element routes to that bucket. -/
theorem heap_tracks_mortal (hash : String → Nat) (s : MemoryCache α)
    (hs : Reachable hash s) (i : Nat) :
    (∀ k e, (s.storage.bucketAt i).data.lookup k = some e → e.ExpireAt ≠ -1 →
        ({ Key := k, ExpireAt := e.ExpireAt } : heap.Element) ∈ (s.storage.bucketAt i).ttl.Data) ∧
      (∀ x ∈ (s.storage.bucketAt i).ttl.Data, hash x.Key % s.storage.buckets.length = i) :=
  ⟨hs.mortalTracked i, (hs.routed i).2⟩

/-- C10. The heap never holds an immortal entry: in every state reachable from
`New` by `Set`, `Delete` and `Expire`, every element of the heap of every bucket has
`ExpireAt ≠ -1`; `Set` with an omitted or a negative ttl stores `ExpireAt = -1` and
leaves every heap as it was; `Expire` with a negative duration leaves every heap as
it was and stores `ExpireAt = -1` for a key that is alive. -/
theorem heap_never_immortal (hash : String → Nat) (s : MemoryCache α)
    (hs : Reachable hash s) :
    (∀ i, ∀ x ∈ (s.storage.bucketAt i).ttl.Data, x.ExpireAt ≠ -1) ∧
      (∀ (t : Time) (k : String) (v : Option α) (expire : List Duration),
        (expire = [] ∨ ∃ d rest, expire = d :: rest ∧ d < 0) →
          stored hash (Set hash s t k v expire) k = some { Value := v, ExpireAt := -1 } ∧
            heaps (Set hash s t k v expire) = heaps s) ∧
      (∀ (t : Time) (k : String) (d : Duration), d < 0 →
        heaps (Expire hash s t k d) = heaps s ∧
          ∀ e, stored hash s k = some e →
            (e.ExpireAt = -1 ∨ UnixMilli (t : Int) < e.ExpireAt) →
              stored hash (Expire hash s t k d) k =
                some { Value := e.Value, ExpireAt := -1 }) := by
  refine ⟨fun i => hs.heapMortal i, fun t k v expire hexp => ?_, fun t k d hd => ?_⟩
  · have hg : getExp t expire = -1 := by
      rcases hexp with h | ⟨d, rest, h, hd⟩
      · subst h; rfl
      · subst h; exact getExp_of_neg t d rest hd
    constructor
    · rw [stored_Set_same hash s t k v expire hs.length_pos, hg]
    · have h := heaps_step hash s t (Op.Set k v expire) (fun b => by simp [bucketStep, hg])
      exact h
  · have hg : getExp t [d] = -1 := getExp_of_neg t d [] hd
    constructor
    · have h := heaps_step hash s t (Op.Expire k d) (fun b => by
        simp only [bucketStep, hg]
        split
        · rfl
        · split <;> simp)
      exact h
    · intro e he halive
      rw [stored_Expire_same, he]
      simp only [(valid_iff t e.ExpireAt).mpr halive, if_true, hg]

/-! ## Instances of the contract on a two-bucket cache -/

theorem cacheSetA_reachable : Reachable lenHash cacheSetA :=
  Reachable.step cache2 0 (Op.Set "a" (some 7) [1000000]) cache2_reachable

/-- Instance of C1: `Set("a", 7, 5ms)` at 0, then `Delete("bb")`; `Get("a")` at 4 ms
is a hit, at 5 ms a miss. -/
theorem Set_then_Get_witness :
    (Get lenHash (run lenHash (Set lenHash cache2 0 "a" (some 7) [5000000])
        [(1, Op.Delete "bb")]) 4000000 "a").1 = (some 7, true) ∧
      (Get lenHash (run lenHash (Set lenHash cache2 0 "a" (some 7) [5000000])
        [(1, Op.Delete "bb")]) 5000000 "a").1 = (none, false) :=
  ⟨(Set_then_Get lenHash cache2 cache2_reachable "a" (some 7) 5000000 (by decide) 0 4000000
      [(1, Op.Delete "bb")] (by decide)).trans (by decide),
    (Set_then_Get lenHash cache2 cache2_reachable "a" (some 7) 5000000 (by decide) 0 5000000
      [(1, Op.Delete "bb")] (by decide)).trans (by decide)⟩

/-- Instance of C3: `a` stored with `ExpireAt = 1`, looked up at 2 ms. -/
theorem Get_expired_is_miss_witness :
    stored lenHash cacheSetA "a" = some { Value := some 7, ExpireAt := 1 } ∧
      (Get lenHash cacheSetA 2000000 "a").1 = (none, false) ∧
      (Get lenHash cacheSetA 2000000 "a").2 = cacheSetA :=
  ⟨by decide,
    (Get_expired_is_miss lenHash cacheSetA 2000000 "a").1 { Value := some 7, ExpireAt := 1 }
      (by decide) (by decide) (by decide),
    (Get_expired_is_miss lenHash cacheSetA 2000000 "a").2⟩

/-- Instance of C4: on `cacheSetA` at clock reading 0 the key `a` is listed and
found; at 2 ms it is neither. -/
theorem Keys_exactly_live_witness :
    ("a" ∈ Keys cacheSetA 0 ∧ (Get lenHash cacheSetA 0 "a").1.2 = true) ∧
      ("a" ∉ Keys cacheSetA 2000000 ∧ (Get lenHash cacheSetA 2000000 "a").1.2 = false) ∧
      (Keys cacheSetA 0).Nodup :=
  ⟨⟨((Keys_exactly_live lenHash cacheSetA cacheSetA_reachable 0).1 "a").mpr (by decide),
      by decide⟩,
    ⟨fun h => absurd
        (((Keys_exactly_live lenHash cacheSetA cacheSetA_reachable 2000000).1 "a").mp h)
        (by decide),
      by decide⟩,
    (Keys_exactly_live lenHash cacheSetA cacheSetA_reachable 0).2⟩

/-- Instance of C5: `Delete("a")` on `cacheSetA`, then `Expire("a", 5ms)` and
`Set("bb", 1)`. -/
theorem Delete_removes_witness :
    stored lenHash (Delete lenHash cacheSetA "a") "a" = none ∧
      (Get lenHash (run lenHash (Delete lenHash cacheSetA "a")
        [(0, Op.Expire "a" 5000000), (0, Op.Set "bb" (some 1) [])]) 0 "a").1 = (none, false) ∧
      "a" ∉ Keys (run lenHash (Delete lenHash cacheSetA "a")
        [(0, Op.Expire "a" 5000000), (0, Op.Set "bb" (some 1) [])]) 0 ∧
      Delete lenHash cache2 "a" = cache2 :=
  ⟨(Delete_removes lenHash cacheSetA "a").1,
    ((Delete_removes lenHash cacheSetA "a").2.1
      [(0, Op.Expire "a" 5000000), (0, Op.Set "bb" (some 1) [])] (by decide) 0).1,
    ((Delete_removes lenHash cacheSetA "a").2.1
      [(0, Op.Expire "a" 5000000), (0, Op.Set "bb" (some 1) [])] (by decide) 0).2
      cacheSetA_reachable,
    (Delete_removes lenHash cache2 "a").2.2 (by decide)⟩

/-- Instance of C7: `a` stored with `ExpireAt = 1` is refreshed at clock reading 0
by 5 ms; it is then found at 4 ms and missed at 5 ms. -/
theorem Expire_refreshes_witness :
    stored lenHash (Expire lenHash cacheSetA 0 "a" 5000000) "a" =
        some { Value := some 7, ExpireAt := 5 } ∧
      (Get lenHash (run lenHash (Expire lenHash cacheSetA 0 "a" 5000000) []) 4000000 "a").1 =
        (some 7, true) ∧
      (Get lenHash (run lenHash (Expire lenHash cacheSetA 0 "a" 5000000) []) 5000000 "a").1 =
        (none, false) :=
  ⟨((Expire_refreshes lenHash cacheSetA "a" { Value := some 7, ExpireAt := 1 } (by decide) 0
      (by decide) 5000000 (by decide)).1).trans (by decide),
    ((Expire_refreshes lenHash cacheSetA "a" { Value := some 7, ExpireAt := 1 } (by decide) 0
      (by decide) 5000000 (by decide)).2 [] (by decide) 4000000).trans (by decide),
    ((Expire_refreshes lenHash cacheSetA "a" { Value := some 7, ExpireAt := 1 } (by decide) 0
      (by decide) 5000000 (by decide)).2 [] (by decide) 5000000).trans (by decide)⟩

/-- Instance of C8: `Expire` of the absent key `b`, and of the key `a` whose entry
expired at 1 ms, at clock reading 2 ms. -/
theorem Expire_never_resurrects_witness :
    Expire lenHash cacheSetA 2000000 "b" 5000000 = cacheSetA ∧
      Expire lenHash cacheSetA 2000000 "a" (-1) = cacheSetA ∧
      (Get lenHash (Expire lenHash cacheSetA 2000000 "a" (-1)) 3000000 "a").1 =
        (none, false) :=
  ⟨(Expire_never_resurrects lenHash cacheSetA "b" 2000000 5000000 (Or.inl (by decide))).1,
    (Expire_never_resurrects lenHash cacheSetA "a" 2000000 (-1)
      (Or.inr ⟨{ Value := some 7, ExpireAt := 1 }, by decide, by decide, by decide⟩)).1,
    (Expire_never_resurrects lenHash cacheSetA "a" 2000000 (-1)
      (Or.inr ⟨{ Value := some 7, ExpireAt := 1 }, by decide, by decide, by decide⟩)).2
      3000000 (by decide)⟩

/-- Instance of the amended C9: in `cacheReSet` the entry of `a`, stored with
`ExpireAt = 2`, has the heap element `(a, 2)`. -/
theorem heap_tracks_mortal_witness :
    ({ Key := "a", ExpireAt := 2 } : heap.Element) ∈ (cacheReSet.storage.bucketAt 1).ttl.Data :=
  (heap_tracks_mortal lenHash cacheReSet (Reachable.run cache2_reachable _) 1).1 "a"
    { Value := some 1, ExpireAt := 2 } (by decide) (by decide)

/-- Instance of C10: in `cacheReSet` the heap element `(a, 1)` is not immortal, and
`Set("a", 1, -1ns)` stores `ExpireAt = -1` and leaves the heaps alone. -/
theorem heap_never_immortal_witness :
    ({ Key := "a", ExpireAt := 1 } : heap.Element).ExpireAt ≠ -1 ∧
      stored lenHash (Set lenHash cacheReSet 0 "a" (some 1) [-1]) "a" =
        some { Value := some 1, ExpireAt := -1 } ∧
      heaps (Set lenHash cacheReSet 0 "a" (some 1) [-1]) = heaps cacheReSet :=
  ⟨(heap_never_immortal lenHash cacheReSet (Reachable.run cache2_reachable _)).1 1
      { Key := "a", ExpireAt := 1 } (by decide),
    ((heap_never_immortal lenHash cacheReSet (Reachable.run cache2_reachable _)).2.1 0 "a"
      (some 1) [-1] (Or.inr ⟨-1, [], rfl, by decide⟩)).1,
    ((heap_never_immortal lenHash cacheReSet (Reachable.run cache2_reachable _)).2.1 0 "a"
      (some 1) [-1] (Or.inr ⟨-1, [], rfl, by decide⟩)).2⟩

/-! ## Frame and monotonicity -/

/-- C19. Operations on one key do not disturb any other key: for every state, every
call among `Set(k, ...)`, `Delete(k)` and `Expire(k, ...)` and every key `k'` other
than `k`, the stored entry of `k'` (presence, value and `ExpireAt`) is the same
before and after the call, so `Get(k')` at the same clock reading gives the same
result. -/
theorem other_keys_untouched (hash : String → Nat) (s : MemoryCache α) (now : Time)
    (op : Op α) (k' : String) (hk : op.key ≠ k') :
    stored hash (step hash s now op) k' = stored hash s k' ∧
      ∀ t : Time, (Get hash (step hash s now op) t k').1 = (Get hash s t k').1 := by
  have h := stored_step_ne hash s now op k' hk
  refine ⟨h, fun t => ?_⟩
  rw [Get_fst, Get_fst, h]

/-- Instance of C19: `Set("b", 9)` and `Delete("b")` on `cacheSetA` leave the entry
of `a` as it was. -/
theorem other_keys_untouched_witness :
    stored lenHash (step lenHash cacheSetA 5 (Op.Set "b" (some 9) [])) "a" =
        stored lenHash cacheSetA "a" ∧
      (Get lenHash (step lenHash cacheSetA 5 (Op.Delete "b")) 0 "a").1 =
        (Get lenHash cacheSetA 0 "a").1 :=
  ⟨(other_keys_untouched lenHash cacheSetA 5 (Op.Set "b" (some 9) []) "a" (by decide)).1,
    (other_keys_untouched lenHash cacheSetA 5 (Op.Delete "b") "a" (by decide)).2 0⟩

/-- C20. Expiry is monotone in time: for every state and key `k`, if `Get(k)` at
clock reading `t` returns not-found then `Get(k)` at any `t' ≥ t` also returns
not-found, and an immortal entry (`ExpireAt = -1`) is found at every clock
reading. -/
theorem expiry_monotone (hash : String → Nat) (s : MemoryCache α) (k : String) :
    (∀ t t' : Time, t ≤ t' → (Get hash s t k).1 = (none, false) →
        (Get hash s t' k).1 = (none, false)) ∧
      (∀ e, stored hash s k = some e → e.ExpireAt = -1 →
        ∀ t : Time, (Get hash s t k).1 = (e.Value, true)) := by
  constructor
  · intro t t' htt h
    rw [Get_fst] at h ⊢
    cases he : stored hash s k with
    | none => rfl
    | some e =>
      rw [he] at h
      simp only at h ⊢
      cases hv : valid t e.ExpireAt with
      | false => simp [valid_false_mono hv htt]
      | true => simp [hv] at h
  · intro e he hforever t
    rw [Get_fst, he]
    simp [hforever, valid_forever]

/-- Instance of C20: on `cacheSetA` the key `a` (expiry 1 ms) is missed at 1 ms and
at 2 ms; after `Set("a", 7)` without ttl it is found at 9 s. -/
theorem expiry_monotone_witness :
    (Get lenHash cacheSetA 2000000 "a").1 = (none, false) ∧
      (Get lenHash (Set lenHash cache2 0 "a" (some 7) []) 9000000000 "a").1 = (some 7, true) :=
  ⟨(expiry_monotone lenHash cacheSetA "a").1 1000000 2000000 (by decide) (by decide),
    (expiry_monotone lenHash (Set lenHash cache2 0 "a" (some 7) []) "a").2
      { Value := some 7, ExpireAt := -1 } (by decide) (by decide) 9000000000⟩


/-! ## Rounding up to a power of two -/

theorem isLeastPow2_of (n e : Nat) (h1 : n ≤ 2 ^ e) (h2 : e = 0 ∨ 2 ^ (e - 1) < n) :
    IsLeastPow2 n (2 ^ e) := by
  refine ⟨⟨e, rfl⟩, h1, fun e' he' => ?_⟩
  rcases h2 with h2 | h2
  · subst h2
    exact Nat.one_le_two_pow
  · apply Nat.pow_le_pow_right (by norm_num)
    by_contra hc
    have h3 : e' ≤ e - 1 := by omega
    have h4 : 2 ^ e' ≤ 2 ^ (e - 1) := Nat.pow_le_pow_right (by norm_num) h3
    omega

theorem isLeastPow2_unique (n r r' : Nat) (h : IsLeastPow2 n r) (h' : IsLeastPow2 n r') :
    r = r' := by
  obtain ⟨⟨e, he⟩, hn, hmin⟩ := h
  obtain ⟨⟨e', he'⟩, hn', hmin'⟩ := h'
  subst he he'
  exact Nat.le_antisymm (hmin e' hn') (hmin' e hn)

theorem isLeastPow2_self (j : Nat) : IsLeastPow2 (2 ^ j) (2 ^ j) :=
  ⟨⟨j, rfl⟩, le_refl _, fun _ he => he⟩

namespace config

/-- The loop of `withInitialize` started from `2 ^ j` leaves with the least power of
two that is at least the target, as long as the target is at most `2 ^ 31`. -/
theorem segmentLoop_spec (fuel j n : Nat) (hn : n ≤ 2147483648) (hj : j ≤ 31)
    (hprev : j = 0 ∨ 2 ^ (j - 1) < n) (hfuel : 32 ≤ fuel + j) :
    ∃ e, segmentLoop fuel (2 ^ j) n = some (2 ^ e) ∧ n ≤ 2 ^ e ∧
      (e = 0 ∨ 2 ^ (e - 1) < n) := by
  induction fuel generalizing j with
  | zero => omega
  | succ fuel ih =>
    unfold segmentLoop
    by_cases hlt : 2 ^ j < n
    · rw [if_pos hlt]
      have hj30 : j ≤ 30 := by
        by_contra hc
        have hj31 : j = 31 := by omega
        subst hj31
        norm_num at hlt
        omega
      have hpow : 2 ^ (j + 1) ≤ 2 ^ 31 := Nat.pow_le_pow_right (by norm_num) (by omega)
      have h31 : (2 : Nat) ^ 31 = 2147483648 := by norm_num
      have hmod : 2 ^ j * 2 % 4294967296 = 2 ^ (j + 1) := by
        rw [← Nat.pow_succ]
        exact Nat.mod_eq_of_lt (by omega)
      rw [hmod]
      exact ih (j + 1) (by omega) (Or.inr (by simpa using hlt)) (by omega)
    · rw [if_neg hlt]
      exact ⟨j, rfl, by omega, hprev⟩

/-- Above `2 ^ 31` the loop of `withInitialize` is never left: the value runs
through the powers of two up to `2 ^ 31`, wraps to `0` and stays there. -/
theorem segmentLoop_diverges (fuel x n : Nat) (hn : 2147483648 < n)
    (hx : x = 0 ∨ ∃ j, j ≤ 31 ∧ x = 2 ^ j) : segmentLoop fuel x n = none := by
  induction fuel generalizing x with
  | zero => rfl
  | succ fuel ih =>
    unfold segmentLoop
    have h31 : (2 : Nat) ^ 31 = 2147483648 := by norm_num
    have hlt : x < n := by
      rcases hx with hx | ⟨j, hj, hx⟩
      · omega
      · have : 2 ^ j ≤ 2 ^ 31 := Nat.pow_le_pow_right (by norm_num) hj
        omega
    rw [if_pos hlt]
    apply ih
    rcases hx with hx | ⟨j, hj, hx⟩
    · subst hx
      exact Or.inl rfl
    · by_cases hj31 : j = 31
      · subst hj31
        subst hx
        exact Or.inl (by norm_num)
      · refine Or.inr ⟨j + 1, by omega, ?_⟩
        have hpow : 2 ^ (j + 1) ≤ 2 ^ 31 := Nat.pow_le_pow_right (by norm_num) (by omega)
        subst hx
        rw [← Nat.pow_succ]
        exact Nat.mod_eq_of_lt (by omega)

end config

namespace utils

theorem Integer.wrap_of_inRange (T : Integer) (y : Int) (h0 : 0 ≤ y) (h1 : y ≤ T.maxValue) :
    T.wrap y = y := by
  cases T <;> simp only [Integer.wrap, Integer.maxValue, Integer.signed, Integer.bits] at h1 ⊢ <;>
    norm_num at h1 ⊢ <;> omega

/-- At `uint32` the loop of `ToBinaryNumber` is the loop of `withInitialize`. -/
theorem ToBinaryNumberLoop_uint32 (fuel x n : Nat) :
    ToBinaryNumberLoop Integer.uint32 fuel (x : Int) (n : Int) =
      (config.segmentLoop fuel x n).map (fun r : Nat => (r : Int)) := by
  induction fuel generalizing x with
  | zero => rfl
  | succ fuel ih =>
    unfold ToBinaryNumberLoop config.segmentLoop
    by_cases hlt : x < n
    · have hlt2 : (x : Int) < (n : Int) := by exact_mod_cast hlt
      rw [if_pos hlt, if_pos hlt2]
      have hw : Integer.uint32.wrap ((x : Int) * 2) = ((x * 2 % 4294967296 : Nat) : Int) := by
        simp only [Integer.wrap, Integer.signed, Integer.bits]
        norm_num
      rw [hw]
      exact ih _
    · have hlt2 : ¬ (x : Int) < (n : Int) := by exact_mod_cast hlt
      rw [if_neg hlt, if_neg hlt2]
      rfl

/-- The loop of `ToBinaryNumber` started from `2 ^ j` leaves with the least power of
two that is at least `n`, at every type that holds `2 ^ 31` and for `n` up to
`2 ^ 31`. -/
theorem ToBinaryNumberLoop_spec (T : Integer) (hT : 2147483648 ≤ T.maxValue)
    (fuel j n : Nat) (hn : n ≤ 2147483648) (hj : j ≤ 31)
    (hprev : j = 0 ∨ 2 ^ (j - 1) < n) (hfuel : 32 ≤ fuel + j) :
    ∃ e, ToBinaryNumberLoop T fuel ((2 ^ j : Nat) : Int) (n : Int) = some ((2 ^ e : Nat) : Int) ∧
      n ≤ 2 ^ e ∧ (e = 0 ∨ 2 ^ (e - 1) < n) := by
  induction fuel generalizing j with
  | zero => omega
  | succ fuel ih =>
    unfold ToBinaryNumberLoop
    by_cases hlt : 2 ^ j < n
    · have hlt2 : ((2 ^ j : Nat) : Int) < (n : Int) := by exact_mod_cast hlt
      rw [if_pos hlt2]
      have hj30 : j ≤ 30 := by
        by_contra hc
        have hj31 : j = 31 := by omega
        subst hj31
        norm_num at hlt
        omega
      have hpow : 2 ^ (j + 1) ≤ 2 ^ 31 := Nat.pow_le_pow_right (by norm_num) (by omega)
      have h31 : (2 : Nat) ^ 31 = 2147483648 := by norm_num
      have hcast : ((2 ^ j : Nat) : Int) * 2 = ((2 ^ (j + 1) : Nat) : Int) := by
        rw [Nat.pow_succ]
        push_cast
        rfl
      have hle : ((2 ^ (j + 1) : Nat) : Int) ≤ T.maxValue := by
        have : ((2 ^ (j + 1) : Nat) : Int) ≤ 2147483648 := by
          have h2 : 2 ^ (j + 1) ≤ 2147483648 := by omega
          exact_mod_cast h2
        omega
      rw [hcast, Integer.wrap_of_inRange T _ (by positivity) hle]
      exact ih (j + 1) (by omega) (Or.inr (by simpa using hlt)) (by omega)
    · have hlt2 : ¬ ((2 ^ j : Nat) : Int) < (n : Int) := by exact_mod_cast hlt
      rw [if_neg hlt2]
      exact ⟨j, rfl, by omega, hprev⟩

/-- At `int32` the loop of `ToBinaryNumber` is never left for `n = 2 ^ 30 + 1`: the
value runs through the powers of two up to `2 ^ 30`, wraps to `-2 ^ 31`, then to `0`,
and stays there. -/
theorem ToBinaryNumberLoop_int32_diverges (fuel : Nat) (x : Int)
    (hx : x = 0 ∨ x = -2147483648 ∨ ∃ j : Nat, j ≤ 30 ∧ x = ((2 ^ j : Nat) : Int)) :
    ToBinaryNumberLoop Integer.int32 fuel x 1073741825 = none := by
  induction fuel generalizing x with
  | zero => rfl
  | succ fuel ih =>
    unfold ToBinaryNumberLoop
    have h30 : (2 : Nat) ^ 30 = 1073741824 := by norm_num
    have hlt : x < 1073741825 := by
      rcases hx with hx | hx | ⟨j, hj, hx⟩
      · omega
      · omega
      · have h1 : 2 ^ j ≤ 2 ^ 30 := Nat.pow_le_pow_right (by norm_num) hj
        have h2 : ((2 ^ j : Nat) : Int) ≤ 1073741824 := by
          have h3 : 2 ^ j ≤ 1073741824 := by omega
          exact_mod_cast h3
        omega
    rw [if_pos hlt]
    apply ih
    rcases hx with hx | hx | ⟨j, hj, hx⟩
    · subst hx
      exact Or.inl (by simp only [Integer.wrap, Integer.signed, Integer.bits]; norm_num)
    · subst hx
      exact Or.inl (by simp only [Integer.wrap, Integer.signed, Integer.bits]; norm_num)
    · by_cases hj30 : j = 30
      · subst hj30
        subst hx
        exact Or.inr (Or.inl (by
          simp only [Integer.wrap, Integer.signed, Integer.bits]; norm_num))
      · refine Or.inr (Or.inr ⟨j + 1, by omega, ?_⟩)
        subst hx
        have hpow : 2 ^ (j + 1) ≤ 2 ^ 30 := Nat.pow_le_pow_right (by norm_num) (by omega)
        have hcast : ((2 ^ j : Nat) : Int) * 2 = ((2 ^ (j + 1) : Nat) : Int) := by
          rw [Nat.pow_succ]
          push_cast
          rfl
        rw [hcast]
        apply Integer.wrap_of_inRange _ _ (by positivity)
        have h2 : ((2 ^ (j + 1) : Nat) : Int) ≤ 1073741824 := by
          have h3 : 2 ^ (j + 1) ≤ 1073741824 := by omega
          exact_mod_cast h3
        have hmax : Integer.int32.maxValue = 2147483647 := by
          simp only [Integer.maxValue, Integer.signed, Integer.bits]
          norm_num
        rw [hmax]
        exact le_trans h2 (by norm_num)

end utils

/-! ## Normalisation of the configuration -/

theorem config.withInitialize_interval (fuel : Nat) (c c' : config.Config)
    (h : config.withInitialize fuel c = some c') :
    c'.TTLCheckInterval =
      if c.TTLCheckInterval ≤ 0 then config.DefaultTTLCheckInterval else c.TTLCheckInterval := by
  unfold config.withInitialize at h
  split at h
  · exact absurd h (by simp)
  · simp only at h
    split at h
    · rename_i hle
      simp only [Option.some.injEq] at h
      subst h
      simp [hle]
    · rename_i hle
      simp only [Option.some.injEq] at h
      subst h
      simp [hle]

theorem Config.checkSegment_of_one (c : Config) (h : c.Segment = 1) : c.checkSegment = false := by
  simp [Config.checkSegment, h]

theorem Config.checkSegment_of_odd (c : Config) (h : c.Segment % 2 = 1) :
    c.checkSegment = false := by
  unfold Config.checkSegment
  split
  · rfl
  · rename_i hgt
    have hpos : c.Segment = (c.Segment - 1) + 1 := by omega
    rw [hpos, Config.checkSegmentLoop]
    rw [← hpos]
    simp [show 1 < c.Segment by omega, h]

/-- The loop of `ToBinaryNumber` started from `2 ^ j` leaves with the least power of
two that is at least `n`, at every type of the constraint, as long as some power of
two `2 ^ k` that is at least `n` is a value of the type. -/
theorem utils.ToBinaryNumberLoop_spec_le (T : utils.Integer) (k : Nat)
    (hT : ((2 ^ k : Nat) : Int) ≤ T.maxValue) (fuel j n : Nat) (hn : n ≤ 2 ^ k) (hj : j ≤ k)
    (hprev : j = 0 ∨ 2 ^ (j - 1) < n) (hfuel : k < fuel + j) :
    ∃ e, utils.ToBinaryNumberLoop T fuel ((2 ^ j : Nat) : Int) (n : Int) =
        some ((2 ^ e : Nat) : Int) ∧
      n ≤ 2 ^ e ∧ (e = 0 ∨ 2 ^ (e - 1) < n) := by
  induction fuel generalizing j with
  | zero => omega
  | succ fuel ih =>
    unfold utils.ToBinaryNumberLoop
    by_cases hlt : 2 ^ j < n
    · have hlt2 : ((2 ^ j : Nat) : Int) < (n : Int) := by exact_mod_cast hlt
      rw [if_pos hlt2]
      have hjk : j < k := by
        by_contra hc
        have h3 : 2 ^ k ≤ 2 ^ j := Nat.pow_le_pow_right (by norm_num) (by omega)
        omega
      have hpow : 2 ^ (j + 1) ≤ 2 ^ k := Nat.pow_le_pow_right (by norm_num) (by omega)
      have hcast : ((2 ^ j : Nat) : Int) * 2 = ((2 ^ (j + 1) : Nat) : Int) := by
        rw [Nat.pow_succ]
        push_cast
        rfl
      have hle : ((2 ^ (j + 1) : Nat) : Int) ≤ T.maxValue :=
        le_trans (by exact_mod_cast hpow) hT
      rw [hcast, utils.Integer.wrap_of_inRange T _ (by positivity) hle]
      exact ih (j + 1) (by omega) (Or.inr (by simpa using hlt)) (by omega)
    · have hlt2 : ¬ ((2 ^ j : Nat) : Int) < (n : Int) := by exact_mod_cast hlt
      rw [if_neg hlt2]
      exact ⟨j, rfl, by omega, hprev⟩

/-- C11, as stated, fails at `int32`: the count `2 ^ 30 + 1` lies between 1 and
`2 ^ 31` and is an `int32` value, yet no `int32` value is the least power of two
that is at least it (that power is `2 ^ 31`, one more than the largest `int32`), and
`ToBinaryNumber` at `int32` returns no value for it, whatever the bound on the
rounds of its loop. -/
theorem round_up_fails_at_int32 :
    (1 ≤ 1073741825 ∧ 1073741825 ≤ 2147483648) ∧
      (1073741825 : Int) ≤ utils.Integer.int32.maxValue ∧
      (¬ ∃ r : Nat, (r : Int) ≤ utils.Integer.int32.maxValue ∧ IsLeastPow2 1073741825 r) ∧
      (∀ fuel, ¬ ∃ r : Nat,
        utils.ToBinaryNumber utils.Integer.int32 fuel ((1073741825 : Nat) : Int) = some (r : Int) ∧
          IsLeastPow2 1073741825 r) := by
  have hmax : utils.Integer.int32.maxValue = 2147483647 := by
    simp only [utils.Integer.maxValue, utils.Integer.signed, utils.Integer.bits]
    norm_num
  refine ⟨⟨by norm_num, by norm_num⟩, by rw [hmax]; norm_num, ?_, fun fuel => ?_⟩
  · rintro ⟨r, hr, hleast⟩
    have h31 : IsLeastPow2 1073741825 (2 ^ 31) :=
      isLeastPow2_of 1073741825 31 (by norm_num) (Or.inr (by norm_num))
    have hreq := isLeastPow2_unique _ _ _ hleast h31
    rw [hmax, hreq] at hr
    norm_num at hr
  · rintro ⟨r, hr, _⟩
    have hnone : utils.ToBinaryNumber utils.Integer.int32 fuel ((1073741825 : Nat) : Int) = none :=
      utils.ToBinaryNumberLoop_int32_diverges fuel 1 (Or.inr (Or.inr ⟨0, by omega, rfl⟩))
    rw [hnone] at hr
    exact absurd hr (by simp)

/-- C11, amended. The bucket count is rounded up to the next power of two: for
every requested count `n` with `1 ≤ n ≤ 2 ^ 31`, `withInitialize` returns (its loop
is left within 32 tests) with `Segment` the least power of two that is at least `n`;
likewise `ToBinaryNumber(n)` returns that power of two at every type of the
constraint that holds `2 ^ 31` and, more generally, at every type of the constraint
of which that power of two is a value (at `int32`: for every `n ≤ 2 ^ 30`); hence a
count that already is a power of two is left unchanged. -/
theorem round_up_to_power_of_two (fuel n : Nat) (hfuel : 32 ≤ fuel) (h1 : 1 ≤ n)
    (h2 : n ≤ 2147483648) :
    (∀ c : config.Config, c.Segment = n →
      ∃ c', config.withInitialize fuel c = some c' ∧ IsLeastPow2 n c'.Segment ∧
        ((∃ j, n = 2 ^ j) → c'.Segment = n)) ∧
    (∀ T : utils.Integer, 2147483648 ≤ T.maxValue →
      ∃ r : Nat, utils.ToBinaryNumber T fuel (n : Int) = some (r : Int) ∧ IsLeastPow2 n r ∧
        ((∃ j, n = 2 ^ j) → r = n)) ∧
    (∀ (T : utils.Integer) (r : Nat), IsLeastPow2 n r → (r : Int) ≤ T.maxValue →
      utils.ToBinaryNumber T fuel (n : Int) = some (r : Int) ∧ ((∃ j, n = 2 ^ j) → r = n)) ∧
    (n ≤ 1073741824 → ∀ T : utils.Integer,
      ∃ r : Nat, utils.ToBinaryNumber T fuel (n : Int) = some (r : Int) ∧ IsLeastPow2 n r ∧
        ((∃ j, n = 2 ^ j) → r = n)) := by
  have hsame : ∀ r, IsLeastPow2 n r → (∃ j, n = 2 ^ j) → r = n := by
    rintro r hr ⟨j, rfl⟩
    exact isLeastPow2_unique _ _ _ hr (isLeastPow2_self j)
  have hgen : ∀ (T : utils.Integer) (r : Nat), IsLeastPow2 n r → (r : Int) ≤ T.maxValue →
      utils.ToBinaryNumber T fuel (n : Int) = some (r : Int) := by
    intro T r hleast hr
    obtain ⟨⟨k, hk⟩, hnr, hmin⟩ := hleast
    subst hk
    have hk31 : k ≤ 31 := by
      by_contra hc
      have h3 : 2 ^ k ≤ 2 ^ 31 := hmin 31 (by norm_num; exact h2)
      have h4 : 2 ^ 32 ≤ 2 ^ k := Nat.pow_le_pow_right (by norm_num) (by omega)
      norm_num at h3 h4
      omega
    obtain ⟨e, he, hle, hprev⟩ :=
      utils.ToBinaryNumberLoop_spec_le T k hr fuel 0 n hnr (by omega) (Or.inl rfl) (by omega)
    have heq : 2 ^ e = 2 ^ k :=
      isLeastPow2_unique n _ _ (isLeastPow2_of n e hle hprev) ⟨⟨k, rfl⟩, hnr, hmin⟩
    unfold utils.ToBinaryNumber
    rw [← heq]
    simpa using he
  refine ⟨?_, ?_, fun T r hleast hr => ⟨hgen T r hleast hr, hsame r hleast⟩, ?_⟩
  · intro c hc
    obtain ⟨e, he, hle, hprev⟩ :=
      config.segmentLoop_spec fuel 0 n h2 (by omega) (Or.inl rfl) (by omega)
    simp only [pow_zero] at he
    have hleast := isLeastPow2_of n e hle hprev
    have hseg : ¬ c.Segment ≤ 0 := by omega
    unfold config.withInitialize
    rw [if_neg hseg, hc, he]
    simp only
    split
    · exact ⟨_, rfl, hleast, hsame _ hleast⟩
    · exact ⟨_, rfl, hleast, hsame _ hleast⟩
  · intro T hT
    obtain ⟨e, he, hle, hprev⟩ :=
      utils.ToBinaryNumberLoop_spec T hT fuel 0 n h2 (by omega) (Or.inl rfl) (by omega)
    have hleast := isLeastPow2_of n e hle hprev
    refine ⟨2 ^ e, ?_, hleast, hsame _ hleast⟩
    unfold utils.ToBinaryNumber
    simpa using he
  · intro h30 T
    obtain ⟨e, he, hle, hprev⟩ :=
      config.segmentLoop_spec fuel 0 n h2 (by omega) (Or.inl rfl) (by omega)
    have hleast := isLeastPow2_of n e hle hprev
    have hr30 : 2 ^ e ≤ 2 ^ 30 := hleast.2.2 30 (by norm_num; exact h30)
    have hmaxT : (1073741824 : Int) ≤ T.maxValue := by
      cases T <;>
        simp only [utils.Integer.maxValue, utils.Integer.signed, utils.Integer.bits] <;>
        norm_num
    have hr : ((2 ^ e : Nat) : Int) ≤ T.maxValue := by
      have h5 : ((2 ^ e : Nat) : Int) ≤ 1073741824 := by
        have h6 : 2 ^ e ≤ 1073741824 := by norm_num at hr30; exact hr30
        exact_mod_cast h6
      exact le_trans h5 hmaxT
    exact ⟨2 ^ e, hgen T _ hleast hr, hleast, hsame _ hleast⟩

/-- Instance of the amended C11: a requested count of 5 is normalised to 8 by
`withInitialize` and by `ToBinaryNumber` at `int32`, and 2 ^ 31 is left unchanged at
`uint32`. -/
theorem round_up_to_power_of_two_witness :
    (∃ c', config.withInitialize 32 ⟨0, 5⟩ = some c' ∧ IsLeastPow2 5 c'.Segment ∧
        ((∃ j, 5 = 2 ^ j) → c'.Segment = 5)) ∧
      config.withInitialize 32 ⟨0, 5⟩ = some ⟨30000000000, 8⟩ ∧
      utils.ToBinaryNumber utils.Integer.int32 32 ((5 : Nat) : Int) = some ((8 : Nat) : Int) ∧
      (∃ r : Nat, utils.ToBinaryNumber utils.Integer.int32 32 ((5 : Nat) : Int) = some (r : Int) ∧
        IsLeastPow2 5 r ∧ ((∃ j, 5 = 2 ^ j) → r = 5)) ∧
      utils.ToBinaryNumber utils.Integer.uint32 32 2147483648 = some 2147483648 :=
  ⟨(round_up_to_power_of_two 32 5 (by decide) (by decide) (by decide)).1 ⟨0, 5⟩ rfl,
    by decide,
    ((round_up_to_power_of_two 32 5 (by decide) (by decide) (by decide)).2.2.1
      utils.Integer.int32 8 (isLeastPow2_of 5 3 (by decide) (Or.inr (by decide)))
      (by decide)).1,
    (round_up_to_power_of_two 32 5 (by decide) (by decide) (by decide)).2.2.2 (by decide)
      utils.Integer.int32,
    by decide⟩

/-- C12. A bucket count of 0 is normalised, not rejected: for every configuration
whose bucket count is 0, and for the omitted configuration, `initialize` sets the
count to exactly 16, `checkSegment` accepts it and `New` returns a cache, with 16
buckets; `withInitialize` sets a count of 0 to 16 as well. -/
theorem zero_bucket_count_normalised :
    (∀ c : Config, c.Segment = 0 →
      c.initialise.Segment = 16 ∧ c.initialise.checkSegment = true ∧
        ∀ rest : List Config, ∃ s : MemoryCache α,
          New (c :: rest) = some s ∧ s.storage.buckets.length = 16) ∧
    (∃ s : MemoryCache α, New [] = some s ∧ s.storage.buckets.length = 16) ∧
    (∀ (fuel : Nat) (c : config.Config), c.Segment = 0 →
      ∃ c', config.withInitialize fuel c = some c' ∧ c'.Segment = 16) := by
  have hinit : ∀ c : Config, c.Segment = 0 → c.initialise.Segment = 16 := by
    intro c hc
    simp only [Config.initialise, hc, if_true]
    split <;> split <;> rfl
  have hcheck : ∀ c : Config, c.Segment = 0 → c.initialise.checkSegment = true := by
    intro c hc
    unfold Config.checkSegment
    rw [hinit c hc]
    decide
  have hnew : ∀ c : Config, c.Segment = 0 → ∃ s : MemoryCache α,
      (if c.initialise.checkSegment = true then
        some (MemoryCache.mk (concurrent_hashmap.newConcurrentHashmap c.initialise))
      else none) = some s ∧ s.storage.buckets.length = 16 := by
    intro c hc
    rw [if_pos (hcheck c hc)]
    refine ⟨_, rfl, ?_⟩
    simp [concurrent_hashmap.newConcurrentHashmap, hinit c hc]
  refine ⟨fun c hc => ⟨hinit c hc, hcheck c hc, fun rest => hnew c hc⟩,
    hnew ⟨0, 0, 0⟩ rfl, fun fuel c hc => ?_⟩
  unfold config.withInitialize
  rw [if_pos (by omega)]
  simp only
  split
  · exact ⟨_, rfl, rfl⟩
  · exact ⟨_, rfl, rfl⟩

/-- Instance of C12: `New(Config{TTLCheckInterval: 5})`, whose bucket count is
unset, returns a cache of 16 buckets. -/
theorem zero_bucket_count_normalised_witness :
    ∃ s : MemoryCache Nat, New [⟨5, 0, 0⟩] = some s ∧ s.storage.buckets.length = 16 :=
  ((zero_bucket_count_normalised.1 ⟨5, 0, 0⟩ rfl).2.2 [])

/-- Evaluation for C13. `New` with a bucket count of 1, and with a bucket count of
3, panics in `checkSegment` (no cache is returned), whereas `withInitialize` keeps a
count of 1 and rounds a count of 3 up to 4. -/
theorem New_rejects_one_and_three :
    (New [⟨0, 0, 1⟩] : Option (MemoryCache Nat)) = none ∧
      (New [⟨0, 0, 3⟩] : Option (MemoryCache Nat)) = none ∧
      config.withInitialize 32 ⟨0, 1⟩ = some ⟨30000000000, 1⟩ ∧
      config.withInitialize 32 ⟨0, 3⟩ = some ⟨30000000000, 4⟩ :=
  ⟨rfl, rfl, by decide, by decide⟩

/-- Evaluation for C14. `Config.initialize` of `memorycache.go`, the normalisation
`New` runs, sets an interval of 0 to 10 (seconds) and leaves a negative interval as
it is, whereas `withInitialize` of `config.go` sets both to 30 s. -/
theorem initialise_interval_is_not_thirty_seconds :
    (Config.initialise ⟨0, 0, 0⟩).TTLCheckInterval = 10 ∧
      (Config.initialise ⟨-5, 0, 0⟩).TTLCheckInterval = -5 ∧
      config.withInitialize 32 ⟨0, 16⟩ = some ⟨30000000000, 16⟩ ∧
      config.withInitialize 32 ⟨-5, 16⟩ = some ⟨30000000000, 16⟩ := by
  decide

/-- Evaluation for C17. After `Set("ming", 1, 3h)`, `Set("hong", 1, 1h)` and
`Set("feng", 1, 2h)`, all into one bucket, `Keys()` lists the three keys and `hong`
is still found: `Set` evicts nothing, whatever the number of entries of the
bucket. -/
theorem Set_never_evicts :
    (cacheOverflow.storage.bucketAt 0).data.keys = ["feng", "hong", "ming"] ∧
      Keys cacheOverflow 0 = ["feng", "hong", "ming"] ∧
      (Get lenHash cacheOverflow 0 "hong").1 = (some 1, true) := by
  decide

/-- Evaluation for C18. For a `Segment` of `2 ^ 31 + 1` the loop of `withInitialize`
is never left, however many rounds it is given; nor is the loop of `ToBinaryNumber`
at `uint32` for `2 ^ 31 + 1`, or at `int32` for `2 ^ 30 + 1`: the doubled value wraps
to 0 and stays below the input. -/
theorem rounding_loop_never_left :
    (∀ fuel, config.withInitialize fuel ⟨0, 2147483649⟩ = none) ∧
      (∀ fuel, utils.ToBinaryNumber utils.Integer.uint32 fuel 2147483649 = none) ∧
      (∀ fuel, utils.ToBinaryNumber utils.Integer.int32 fuel 1073741825 = none) := by
  have hseg : ∀ fuel, config.segmentLoop fuel 1 2147483649 = none := fun fuel =>
    config.segmentLoop_diverges fuel 1 2147483649 (by norm_num) (Or.inr ⟨0, by omega, rfl⟩)
  refine ⟨fun fuel => ?_, fun fuel => ?_, fun fuel => ?_⟩
  · unfold config.withInitialize
    rw [if_neg (by norm_num), hseg fuel]
  · unfold utils.ToBinaryNumber
    have h := utils.ToBinaryNumberLoop_uint32 fuel 1 2147483649
    rw [hseg fuel] at h
    simpa using h
  · exact utils.ToBinaryNumberLoop_int32_diverges fuel 1 (Or.inr (Or.inr ⟨0, by omega, rfl⟩))


/-! ## The heap order -/

namespace heap.Heap

theorem Len_Swap (h : Heap) (i j : Nat) : (h.Swap i j).Len = h.Len := by
  unfold Swap Len
  split
  · simp
  · rfl

theorem getElem?_Swap (h : Heap) (i j k : Nat) (hi : i < h.Len) (hj : j < h.Len) :
    (h.Swap i j).Data[k]? =
      if k = j then h.Data[i]? else if k = i then h.Data[j]? else h.Data[k]? := by
  unfold Len at hi hj
  have h1 : h.Data[i]? = some h.Data[i] := List.getElem?_eq_getElem hi
  have h2 : h.Data[j]? = some h.Data[j] := List.getElem?_eq_getElem hj
  unfold Swap
  rw [h1, h2]
  simp only
  by_cases hkj : k = j
  · subst hkj
    simp [List.getElem?_set, hj]
  · by_cases hki : k = i
    · subst hki
      have hjk : ¬ j = k := fun hc => hkj hc.symm
      simp [List.getElem?_set, hi, hkj, hjk]
    · have hjk : ¬ j = k := fun hc => hkj hc.symm
      have hik : ¬ i = k := fun hc => hki hc.symm
      simp [List.getElem?_set, hkj, hki, hjk, hik]

theorem expireAt_Swap (h : Heap) (i j k : Nat) (hi : i < h.Len) (hj : j < h.Len) :
    (h.Swap i j).expireAt k =
      if k = j then h.expireAt i else if k = i then h.expireAt j else h.expireAt k := by
  unfold expireAt
  rw [getElem?_Swap h i j k hi hj]
  split_ifs <;> rfl

theorem Less_eq (h : Heap) (i j : Nat) (hi : i < h.Len) (hj : j < h.Len) :
    h.Less i j = decide (h.expireAt i < h.expireAt j) := by
  unfold Len at hi hj
  unfold Less expireAt
  rw [List.getElem?_eq_getElem hi, List.getElem?_eq_getElem hj]

theorem isHeap_iff (h : Heap) : IsHeap h ↔ ParentOrdered h := by
  unfold IsHeap ParentOrdered ParentLe
  constructor
  · intro hh c hc hlt
    have hp := hh ((c - 1) / 2) (by omega)
    rcases Nat.even_or_odd c with he | ho
    · obtain ⟨m, hm⟩ := he
      have h2 : 2 * ((c - 1) / 2) + 2 = c := by omega
      have := hp.2 (by omega)
      rwa [h2] at this
    · obtain ⟨m, hm⟩ := ho
      have h2 : 2 * ((c - 1) / 2) + 1 = c := by omega
      have := hp.1 (by omega)
      rwa [h2] at this
  · intro hh i _
    constructor
    · intro hlt
      have := hh (2 * i + 1) (by omega) hlt
      have h2 : (2 * i + 1 - 1) / 2 = i := by omega
      rwa [h2] at this
    · intro hlt
      have := hh (2 * i + 2) (by omega) hlt
      have h2 : (2 * i + 2 - 1) / 2 = i := by omega
      rwa [h2] at this

/-- One round of sifting up keeps the starting condition, one level higher. -/
theorem upReady_Swap (h : Heap) (i : Nat) (hi : i < h.Len) (hpos : 0 < i)
    (hless : h.expireAt i < h.expireAt ((i - 1) / 2)) (hr : UpReady h i) :
    UpReady (h.Swap i ((i - 1) / 2)) ((i - 1) / 2) := by
  obtain ⟨p, hp⟩ : ∃ p, p = (i - 1) / 2 := ⟨_, rfl⟩
  rw [← hp] at hless ⊢
  have hpi : p < i := by omega
  have hpl : p < h.Len := by omega
  obtain ⟨h1, h2⟩ := hr
  unfold GrandOrdered at h2
  unfold ParentLe at h1
  constructor
  · intro c hc hcl hcp
    rw [Len_Swap] at hcl
    unfold ParentLe
    obtain ⟨q, hq⟩ : ∃ q, q = (c - 1) / 2 := ⟨_, rfl⟩
    rw [← hq, expireAt_Swap h i p q hi hpl, expireAt_Swap h i p c hi hpl, if_neg hcp]
    by_cases hci : c = i
    · have hqp : q = p := by rw [hq, hp, hci]
      rw [if_pos hqp, if_pos hci]
      exact le_of_lt hless
    · rw [if_neg hci]
      have hc1 := h1 c hc hcl hci
      rw [← hq] at hc1
      by_cases hqp : q = p
      · rw [if_pos hqp]
        rw [hqp] at hc1
        omega
      · rw [if_neg hqp]
        by_cases hqi : q = i
        · rw [if_pos hqi]
          have h3 := h2 c hc hcl (by rw [← hq]; exact hqi) hpos
          rw [← hp] at h3
          exact h3
        · rw [if_neg hqi]
          exact hc1
  · intro c hc hcl hcp hp0
    rw [Len_Swap] at hcl
    obtain ⟨g, hg⟩ : ∃ g, g = (p - 1) / 2 := ⟨_, rfl⟩
    rw [← hg, expireAt_Swap h i p g hi hpl, expireAt_Swap h i p c hi hpl,
      if_neg (by omega : ¬ g = p), if_neg (by omega : ¬ g = i), if_neg (by omega : ¬ c = p)]
    have hpp := h1 p hp0 hpl (by omega)
    rw [← hg] at hpp
    by_cases hci : c = i
    · rw [if_pos hci]
      exact hpp
    · rw [if_neg hci]
      have hc1 := h1 c hc hcl hci
      rw [hcp] at hc1
      omega

/-- Sifting up from a position where the heap order may fail only towards the
parent restores the heap order. -/
theorem upLoop_parentOrdered (fuel : Nat) (h : Heap) (i : Nat) (hi : i < h.Len)
    (hf : i ≤ fuel) (hr : UpReady h i) : ParentOrdered (upLoop fuel h i) := by
  induction fuel generalizing h i with
  | zero =>
    intro c hc hcl
    exact hr.1 c hc hcl (by omega)
  | succ fuel ih =>
    unfold upLoop
    by_cases hcond : 0 < i ∧ h.Less i ((i - 1) / 2) = true
    · rw [if_pos hcond]
      obtain ⟨hpos, hless⟩ := hcond
      rw [Less_eq h i _ hi (by omega), decide_eq_true_eq] at hless
      exact ih _ _ (by rw [Len_Swap]; omega) (by omega) (upReady_Swap h i hi hpos hless hr)
    · rw [if_neg hcond]
      intro c hc hcl
      by_cases hci : c = i
      · subst hci
        unfold ParentLe
        have hnl : ¬ h.Less c ((c - 1) / 2) = true := fun hl => hcond ⟨hc, hl⟩
        rw [Less_eq h c _ hi (by omega), decide_eq_true_eq] at hnl
        omega
      · exact hr.1 c hc hcl hci

theorem upReady_of_parentOrdered (h : Heap) (i : Nat) (hh : ParentOrdered h) : UpReady h i := by
  refine ⟨fun c hc hcl _ => hh c hc hcl, fun c hc hcl hcp hpos => ?_⟩
  have h1 := hh c hc hcl
  have h2 := hh i hpos (by omega)
  unfold ParentLe at h1 h2
  rw [hcp] at h1
  omega

theorem Up_isHeap_of_upReady (h : Heap) (i : Nat) (hi : i < h.Len) (hr : UpReady h i) :
    IsHeap (h.Up i) :=
  (isHeap_iff _).mpr (upLoop_parentOrdered i h i hi (le_refl _) hr)

theorem expireAt_append_left (l : List Element) (e : Element) (k : Nat) (hk : k < l.length) :
    (Heap.mk (l ++ [e])).expireAt k = (Heap.mk l).expireAt k := by
  unfold expireAt
  simp only
  rw [List.getElem?_append_left hk]

/-- `Push` keeps the heap order. -/
theorem Push_isHeap (h : Heap) (e : Element) (hh : IsHeap h) : IsHeap (h.Push e) := by
  unfold Push
  apply Up_isHeap_of_upReady
  · simp [Len]
  · have hp := (isHeap_iff h).mp hh
    constructor
    · intro c hc hcl hci
      have hcl2 : c < h.Data.length := by
        simp only [Len, List.length_append, List.length_singleton] at hcl
        omega
      unfold ParentLe
      rw [expireAt_append_left _ _ _ hcl2, expireAt_append_left _ _ _ (by omega)]
      exact hp c hc hcl2
    · intro c hc hcl hcp _
      simp only [Len, List.length_append, List.length_singleton] at hcl
      omega

theorem pushAll_isHeap (xs : List Element) : IsHeap (pushAll xs) := by
  have hgen : ∀ (ys : List Element) (h : Heap), IsHeap h → IsHeap (ys.foldl Push h) := by
    intro ys
    induction ys with
    | nil => exact fun h hh => hh
    | cons y ys ih => exact fun h hh => ih _ (Push_isHeap h y hh)
  exact hgen xs empty (fun i hi => absurd hi (by simp [Len, empty]))

theorem pushAll_perm (xs : List Element) : (pushAll xs).Data.Perm xs := by
  have hgen : ∀ (ys : List Element) (h : Heap), (ys.foldl Push h).Data.Perm (h.Data ++ ys) := by
    intro ys
    induction ys with
    | nil => exact fun h => by simp
    | cons y ys ih =>
      intro h
      refine (ih (h.Push y)).trans ?_
      have := (Push_perm h y).append_right ys
      simpa using this
  simpa [empty] using hgen xs empty

/-- One round of sifting down keeps the starting condition, one level lower. -/
theorem downReady_Swap (h : Heap) (i x : Nat) (hx : x = 2 * i + 1 ∨ x = 2 * i + 2)
    (hxl : x < h.Len) (hless : h.expireAt x < h.expireAt i)
    (hmin : ∀ c, 0 < c → c < h.Len → (c - 1) / 2 = i → h.expireAt x ≤ h.expireAt c)
    (hr : DownReady h i) : DownReady (h.Swap i x) x := by
  have hil : i < h.Len := by omega
  have hxi : (x - 1) / 2 = i := by omega
  obtain ⟨h1, h2⟩ := hr
  unfold GrandOrdered at h2
  unfold ParentLe at h1
  constructor
  · intro c hc hcl hcx
    rw [Len_Swap] at hcl
    unfold ParentLe
    obtain ⟨q, hq⟩ : ∃ q, q = (c - 1) / 2 := ⟨_, rfl⟩
    rw [← hq] at hcx
    rw [← hq, expireAt_Swap h i x q hil hxl, expireAt_Swap h i x c hil hxl, if_neg hcx]
    by_cases hcx2 : c = x
    · have hqi : q = i := by rw [hq, hcx2, hxi]
      rw [if_pos hqi, if_pos hcx2]
      exact le_of_lt hless
    · rw [if_neg hcx2]
      by_cases hci : c = i
      · rw [if_pos hci, if_neg (by omega : ¬ q = i)]
        have h3 := h2 x (by omega) hxl hxi (by omega)
        rw [hq, hci]
        exact h3
      · rw [if_neg hci]
        by_cases hqi : q = i
        · rw [if_pos hqi]
          exact hmin c hc hcl (by rw [← hq]; exact hqi)
        · rw [if_neg hqi]
          have h3 := h1 c hc hcl (by rw [← hq]; exact hqi)
          rw [← hq] at h3
          exact h3
  · intro c hc hcl hcp _
    rw [Len_Swap] at hcl
    rw [hxi, expireAt_Swap h i x i hil hxl, expireAt_Swap h i x c hil hxl,
      if_neg (by omega : ¬ i = x), if_pos rfl, if_neg (by omega : ¬ c = x),
      if_neg (by omega : ¬ c = i)]
    have h3 := h1 c hc hcl (by omega)
    rw [hcp] at h3
    exact h3

/-- Sifting down from a position where the heap order may fail only towards the
children restores the heap order. -/
theorem downLoop_parentOrdered (fuel : Nat) (h : Heap) (i n : Nat) (hn : n = h.Len)
    (hf : n ≤ fuel + i) (hr : DownReady h i) : ParentOrdered (downLoop fuel h i n) := by
  induction fuel generalizing h i with
  | zero =>
    unfold downLoop
    intro c hc hcl
    exact hr.1 c hc hcl (by omega)
  | succ fuel ih =>
    unfold downLoop
    by_cases hj : 2 * i + 1 < n
    · rw [if_pos hj]
      obtain ⟨x, hx⟩ : ∃ x, x =
          (if 2 * i + 2 < n ∧ h.Less (2 * i + 2) (2 * i + 1) = true then 2 * i + 2
            else 2 * i + 1) := ⟨_, rfl⟩
      rw [← hx]
      have hfacts : (x = 2 * i + 1 ∨ x = 2 * i + 2) ∧ x < n ∧
          ∀ c, 0 < c → c < h.Len → (c - 1) / 2 = i → h.expireAt x ≤ h.expireAt c := by
        by_cases hcond : 2 * i + 2 < n ∧ h.Less (2 * i + 2) (2 * i + 1) = true
        · rw [if_pos hcond] at hx
          obtain ⟨hk, hl⟩ := hcond
          rw [Less_eq h _ _ (by omega) (by omega), decide_eq_true_eq] at hl
          refine ⟨Or.inr hx, by omega, fun c hc hcl hcp => ?_⟩
          rcases (by omega : c = 2 * i + 1 ∨ c = 2 * i + 2) with h3 | h3
          · rw [hx, h3]
            exact le_of_lt hl
          · rw [hx, h3]
        · rw [if_neg hcond] at hx
          refine ⟨Or.inl hx, by omega, fun c hc hcl hcp => ?_⟩
          rcases (by omega : c = 2 * i + 1 ∨ c = 2 * i + 2) with h3 | h3
          · rw [hx, h3]
          · have hnl : ¬ h.Less (2 * i + 2) (2 * i + 1) = true :=
              fun hl => hcond ⟨by omega, hl⟩
            rw [Less_eq h _ _ (by omega) (by omega), decide_eq_true_eq] at hnl
            rw [hx, h3]
            omega
      obtain ⟨hxc, hxl, hmin⟩ := hfacts
      by_cases hl : h.Less x i = true
      · rw [if_pos hl]
        rw [Less_eq h x i (by omega) (by omega), decide_eq_true_eq] at hl
        exact ih _ _ (by rw [Len_Swap]; exact hn) (by omega)
          (downReady_Swap h i x hxc (by omega) hl hmin hr)
      · rw [if_neg hl]
        rw [Less_eq h x i (by omega) (by omega), decide_eq_true_eq] at hl
        intro c hc hcl
        by_cases hqi : (c - 1) / 2 = i
        · have h3 := hmin c hc hcl hqi
          unfold ParentLe
          rw [hqi]
          omega
        · exact hr.1 c hc hcl hqi
    · rw [if_neg hj]
      intro c hc hcl
      exact hr.1 c hc hcl (by omega)

theorem Down_isHeap_of_downReady (h : Heap) (i : Nat) (hr : DownReady h i) :
    IsHeap (h.Down i h.Len) :=
  (isHeap_iff _).mpr (downLoop_parentOrdered h.Len h i h.Len rfl (by omega) hr)

theorem downLoop_perm (fuel : Nat) (h : Heap) (i n : Nat) :
    (downLoop fuel h i n).Data.Perm h.Data := by
  induction fuel generalizing h i with
  | zero => exact List.Perm.refl _
  | succ fuel ih =>
    unfold downLoop
    split_ifs <;> first | exact List.Perm.refl _ | exact (ih _ _).trans (Swap_perm _ _ _)

theorem Down_perm (h : Heap) (i n : Nat) : (h.Down i n).Data.Perm h.Data :=
  downLoop_perm _ _ _ _

/-- The bound on the rounds of `downLoop` is immaterial once it covers the
positions from `i` to `n`. -/
theorem downLoop_fuel (a b : Nat) (h : Heap) (i n : Nat) (ha : n ≤ a + i) (hb : n ≤ b + i) :
    downLoop a h i n = downLoop b h i n := by
  induction a generalizing b h i with
  | zero =>
    cases b with
    | zero => rfl
    | succ b =>
      unfold downLoop
      rw [if_neg (by omega)]
  | succ a ih =>
    cases b with
    | zero =>
      unfold downLoop
      rw [if_neg (by omega)]
    | succ b =>
      unfold downLoop
      split_ifs <;> first | rfl | (apply ih <;> omega)

/-- Sifting down obeys the recursive description of the spec: take the smaller
child, exchange with it while it is strictly less, then continue from there. -/
theorem Down_eq (h : Heap) (i n : Nat) :
    h.Down i n =
      if 2 * i + 1 < n then
        if h.Less
            (if 2 * i + 2 < n ∧ h.Less (2 * i + 2) (2 * i + 1) = true then 2 * i + 2
              else 2 * i + 1) i = true then
          (h.Swap i
            (if 2 * i + 2 < n ∧ h.Less (2 * i + 2) (2 * i + 1) = true then 2 * i + 2
              else 2 * i + 1)).Down
            (if 2 * i + 2 < n ∧ h.Less (2 * i + 2) (2 * i + 1) = true then 2 * i + 2
              else 2 * i + 1) n
        else h
      else h := by
  unfold Down
  cases n with
  | zero => simp [downLoop]
  | succ n =>
    rw [downLoop]
    split_ifs <;> first | rfl | (apply downLoop_fuel <;> omega)

theorem Len_cut (h : Heap) (i : Nat) : (h.cut i).Len = h.Len - 1 := by
  have h1 := Len_Swap h i (h.Len - 1)
  unfold Len at h1
  simp only [cut, Len, List.length_take, h1]
  exact Nat.min_eq_left (Nat.sub_le _ _)

theorem expireAt_cut (h : Heap) (i k : Nat) (hi : i < h.Len) (hk : k < h.Len - 1) :
    (h.cut i).expireAt k = if k = i then h.expireAt (h.Len - 1) else h.expireAt k := by
  have h1 : (h.cut i).expireAt k = (h.Swap i (h.Len - 1)).expireAt k := by
    unfold expireAt cut
    simp only
    rw [List.getElem?_take_of_lt hk]
  rw [h1, expireAt_Swap h i (h.Len - 1) k hi (by omega), if_neg (by omega)]

theorem cut_perm (h : Heap) (i : Nat) (e : Element) (hi : h.Data[i]? = some e) :
    h.Data.Perm (e :: (h.cut i).Data) := by
  have hil : i < h.Len := (List.getElem?_eq_some_iff.mp hi).1
  have hlast : (h.Swap i (h.Len - 1)).Data[h.Len - 1]? = some e := by
    rw [getElem?_Swap h i (h.Len - 1) (h.Len - 1) hil (by omega), if_pos rfl]
    exact hi
  obtain ⟨hlt, hget⟩ := List.getElem?_eq_some_iff.mp hlast
  have hlen : (h.Swap i (h.Len - 1)).Data.length = h.Len := Len_Swap h i (h.Len - 1)
  have hdrop : (h.Swap i (h.Len - 1)).Data.drop (h.Len - 1) = [e] := by
    rw [List.drop_eq_getElem_cons hlt, hget, List.drop_eq_nil_of_le (by omega)]
  have hsplit := List.take_append_drop (h.Len - 1) (h.Swap i (h.Len - 1)).Data
  rw [hdrop] at hsplit
  have hp : (h.Swap i (h.Len - 1)).Data.Perm (e :: (h.cut i).Data) := by
    have h2 : (List.take (h.Len - 1) (h.Swap i (h.Len - 1)).Data ++ [e]).Perm
        (e :: List.take (h.Len - 1) (h.Swap i (h.Len - 1)).Data) :=
      List.perm_append_singleton _ _
    rw [hsplit] at h2
    exact h2
  exact (Swap_perm h i (h.Len - 1)).symm.trans hp

theorem Len_Down (h : Heap) (i n : Nat) : (h.Down i n).Len = h.Len :=
  (Down_perm h i n).length_eq

theorem Len_Up (h : Heap) (i : Nat) : (h.Up i).Len = h.Len :=
  (Up_perm h i).length_eq

/-- In a heap the root is at most every element. -/
theorem root_min (h : Heap) (hh : ParentOrdered h) (k : Nat) (hk : k < h.Len) :
    h.expireAt 0 ≤ h.expireAt k := by
  induction k using Nat.strong_induction_on with
  | _ k ih =>
    by_cases hk0 : k = 0
    · subst hk0
      exact le_refl _
    · have h1 := ih ((k - 1) / 2) (by omega) (by omega)
      have h2 := hh k (by omega) hk
      unfold ParentLe at h2
      omega

theorem Front_min (h : Heap) (hh : IsHeap h) (r : Element) (hr : h.Front = some r)
    (x : Element) (hx : x ∈ h.Data) : r.ExpireAt ≤ x.ExpireAt := by
  obtain ⟨k, hk, hget⟩ := List.getElem_of_mem hx
  have h1 := root_min h ((isHeap_iff h).mp hh) k hk
  unfold Front at hr
  unfold expireAt at h1
  rw [hr, List.getElem?_eq_getElem hk, hget] at h1
  exact h1

/-! ### `Pop` -/

theorem cut_zero_downReady (h : Heap) (hh : ParentOrdered h) (hpos : 0 < h.Len) :
    DownReady (h.cut 0) 0 := by
  constructor
  · intro c hc hcl hq
    rw [Len_cut] at hcl
    unfold ParentLe
    rw [expireAt_cut h 0 _ hpos (by omega), expireAt_cut h 0 c hpos hcl, if_neg hq,
      if_neg (by omega)]
    exact hh c hc (by omega)
  · intro c _ _ _ h0
    omega

theorem Pop_of_some (h : Heap) (root : Element) (hr : h.Data[0]? = some root) :
    h.Pop = (some root, (h.cut 0).Down 0 (h.Len - 1)) := by
  simp only [Pop, hr]

theorem Pop_of_none (h : Heap) (hr : h.Data[0]? = none) : h.Pop = (none, h) := by
  simp only [Pop, hr]

theorem Pop_fst (h : Heap) : h.Pop.1 = h.Front := by
  unfold Front
  cases hr : h.Data[0]? with
  | none => rw [Pop_of_none h hr]
  | some root => rw [Pop_of_some h root hr]

/-- `Pop` keeps the heap order. -/
theorem Pop_isHeap (h : Heap) (hh : IsHeap h) : IsHeap h.Pop.2 := by
  cases hr : h.Data[0]? with
  | none =>
    rw [Pop_of_none h hr]
    exact hh
  | some root =>
    rw [Pop_of_some h root hr]
    have hpos : 0 < h.Len := (List.getElem?_eq_some_iff.mp hr).1
    have h1 := Down_isHeap_of_downReady (h.cut 0) 0
      (cut_zero_downReady h ((isHeap_iff h).mp hh) hpos)
    rw [Len_cut] at h1
    exact h1

theorem Pop_perm (h : Heap) (root : Element) (hr : h.Data[0]? = some root) :
    h.Data.Perm (root :: h.Pop.2.Data) := by
  rw [Pop_of_some h root hr]
  exact (cut_perm h 0 root hr).trans ((Down_perm _ _ _).symm.cons root)

theorem Len_Pop (h : Heap) : h.Pop.2.Len = h.Len - 1 := by
  cases hr : h.Data[0]? with
  | none =>
    rw [Pop_of_none h hr]
    have h0 : h.Data.length ≤ 0 := List.getElem?_eq_none_iff.mp hr
    simp only [Len]
    omega
  | some root =>
    have h1 := (Pop_perm h root hr).length_eq
    simp only [Len, List.length_cons] at h1 ⊢
    omega

theorem popTimes_isHeap (k : Nat) (h : Heap) (hh : IsHeap h) : IsHeap (popTimes k h) := by
  induction k generalizing h with
  | zero => exact hh
  | succ k ih => exact ih _ (Pop_isHeap h hh)

theorem Len_popTimes (k : Nat) (h : Heap) : (popTimes k h).Len = h.Len - k := by
  induction k generalizing h with
  | zero => rfl
  | succ k ih =>
    simp only [popTimes]
    rw [ih, Len_Pop]
    omega

/-- Popping a heap until it is empty returns its elements in non-decreasing order
of `ExpireAt`. -/
theorem popLoop_spec (fuel : Nat) (h : Heap) (hh : IsHeap h) (hf : h.Len ≤ fuel) :
    (popLoop fuel h).Perm h.Data ∧
      (popLoop fuel h).Pairwise (fun a b => a.ExpireAt ≤ b.ExpireAt) := by
  induction fuel generalizing h with
  | zero =>
    have hnil : h.Data = [] := List.length_eq_zero.mp (by unfold Len at hf; omega)
    simp [popLoop, hnil]
  | succ fuel ih =>
    unfold popLoop
    by_cases hpos : 0 < h.Len
    · rw [if_pos hpos]
      have hr : h.Data[0]? = some h.Data[0] := List.getElem?_eq_getElem hpos
      have hperm := Pop_perm h _ hr
      have hheap := Pop_isHeap h hh
      have hlen := Len_Pop h
      rw [Pop_of_some h _ hr] at hperm hheap hlen ⊢
      simp only at hperm hheap hlen ⊢
      obtain ⟨ih1, ih2⟩ := ih _ hheap (by omega)
      refine ⟨(ih1.cons _).trans hperm.symm, List.pairwise_cons.mpr ⟨fun b hb => ?_, ih2⟩⟩
      have hb2 : b ∈ h.Data := hperm.symm.subset (List.mem_cons_of_mem _ (ih1.subset hb))
      exact Front_min h hh _ hr b hb2
    · rw [if_neg hpos]
      have hnil : h.Data = [] := List.length_eq_zero.mp (by unfold Len at hpos; omega)
      simp [hnil]

/-! ### `Delete` -/

/-- Sifting down changes nothing when no child is strictly less. -/
theorem Down_of_not_less (h : Heap) (i n : Nat)
    (hno : ∀ x, x = 2 * i + 1 ∨ x = 2 * i + 2 → x < n → h.Less x i = false) :
    h.Down i n = h := by
  rw [Down_eq]
  by_cases hj : 2 * i + 1 < n
  · rw [if_pos hj]
    obtain ⟨x, hx⟩ : ∃ x, x =
        (if 2 * i + 2 < n ∧ h.Less (2 * i + 2) (2 * i + 1) = true then 2 * i + 2
          else 2 * i + 1) := ⟨_, rfl⟩
    rw [← hx]
    have hfacts : (x = 2 * i + 1 ∨ x = 2 * i + 2) ∧ x < n := by
      by_cases hcond : 2 * i + 2 < n ∧ h.Less (2 * i + 2) (2 * i + 1) = true
      · rw [if_pos hcond] at hx
        exact ⟨Or.inr hx, by omega⟩
      · rw [if_neg hcond] at hx
        exact ⟨Or.inl hx, by omega⟩
    rw [hno x hfacts.1 hfacts.2]
    simp
  · rw [if_neg hj]

theorem cut_parentOrdered_last (h : Heap) (hh : ParentOrdered h) (hpos : 0 < h.Len) :
    ParentOrdered (h.cut (h.Len - 1)) := by
  intro c hc hcl
  rw [Len_cut] at hcl
  unfold ParentLe
  rw [expireAt_cut h _ _ (by omega) (by omega), expireAt_cut h _ c (by omega) hcl,
    if_neg (by omega), if_neg (by omega)]
  exact hh c hc (by omega)

/-- The replacement is at least the parent of `i`: the heap order can fail only
towards the children of `i`. -/
theorem cut_downReady (h : Heap) (i : Nat) (hh : ParentOrdered h) (hi : i < h.Len - 1)
    (hge : ¬ (0 < i ∧ h.expireAt (h.Len - 1) < h.expireAt ((i - 1) / 2))) :
    DownReady (h.cut i) i := by
  constructor
  · intro c hc hcl hq
    rw [Len_cut] at hcl
    unfold ParentLe
    rw [expireAt_cut h i _ (by omega) (by omega), expireAt_cut h i c (by omega) hcl, if_neg hq]
    by_cases hci : c = i
    · rw [if_pos hci, hci]
      by_contra hc2
      exact hge ⟨by omega, by omega⟩
    · rw [if_neg hci]
      exact hh c hc (by omega)
  · intro c hc hcl hcp hpos
    rw [Len_cut] at hcl
    rw [expireAt_cut h i _ (by omega) (by omega), expireAt_cut h i c (by omega) hcl,
      if_neg (by omega), if_neg (by omega)]
    have h1 := hh c hc (by omega)
    have h2 := hh i hpos (by omega)
    unfold ParentLe at h1 h2
    rw [hcp] at h1
    omega

/-- The replacement is strictly less than the parent of `i`: the heap order can
fail only towards the parent of `i`. -/
theorem cut_upReady (h : Heap) (i : Nat) (hh : ParentOrdered h) (hi : i < h.Len - 1)
    (hlt : 0 < i ∧ h.expireAt (h.Len - 1) < h.expireAt ((i - 1) / 2)) :
    UpReady (h.cut i) i := by
  have h2 := hh i hlt.1 (by omega)
  unfold ParentLe at h2
  constructor
  · intro c hc hcl hci
    rw [Len_cut] at hcl
    unfold ParentLe
    rw [expireAt_cut h i _ (by omega) (by omega), expireAt_cut h i c (by omega) hcl, if_neg hci]
    have h1 := hh c hc (by omega)
    unfold ParentLe at h1
    by_cases hq : (c - 1) / 2 = i
    · rw [if_pos hq]
      rw [hq] at h1
      omega
    · rw [if_neg hq]
      exact h1
  · intro c hc hcl hcp hpos
    rw [Len_cut] at hcl
    rw [expireAt_cut h i _ (by omega) (by omega), expireAt_cut h i c (by omega) hcl,
      if_neg (by omega), if_neg (by omega)]
    have h1 := hh c hc (by omega)
    unfold ParentLe at h1
    rw [hcp] at h1
    omega

theorem cut_child_not_less (h : Heap) (i x : Nat) (hh : ParentOrdered h) (hi : i < h.Len - 1)
    (hlt : 0 < i ∧ h.expireAt (h.Len - 1) < h.expireAt ((i - 1) / 2))
    (hx : x = 2 * i + 1 ∨ x = 2 * i + 2) (hxl : x < h.Len - 1) :
    (h.cut i).Less x i = false := by
  rw [Less_eq _ x i (by rw [Len_cut]; exact hxl) (by rw [Len_cut]; exact hi),
    expireAt_cut h i x (by omega) hxl, expireAt_cut h i i (by omega) hi,
    if_neg (by omega), if_pos rfl]
  have h1 := hh x (by omega) (by omega)
  have h2 := hh i hlt.1 (by omega)
  unfold ParentLe at h1 h2
  rw [(by omega : (x - 1) / 2 = i)] at h1
  exact decide_eq_false (by omega)

/-- `Delete` keeps the heap order. -/
theorem Delete_isHeap (h : Heap) (i : Nat) (hh : IsHeap h) (hi : i < h.Len) :
    IsHeap (h.Delete i) := by
  have hp := (isHeap_iff h).mp hh
  unfold Delete
  rw [if_neg (by omega)]
  by_cases hlast : i < h.Len - 1
  · rw [if_pos hlast]
    by_cases hcase : 0 < i ∧ h.expireAt (h.Len - 1) < h.expireAt ((i - 1) / 2)
    · rw [Down_of_not_less (h.cut i) i (h.Len - 1)
        (fun x hx hxl => cut_child_not_less h i x hp hlast hcase hx hxl)]
      exact Up_isHeap_of_upReady _ i (by rw [Len_cut]; exact hlast)
        (cut_upReady h i hp hlast hcase)
    · have h1 := Down_isHeap_of_downReady (h.cut i) i (cut_downReady h i hp hlast hcase)
      rw [Len_cut] at h1
      exact Up_isHeap_of_upReady _ i (by rw [Len_Down, Len_cut]; exact hlast)
        (upReady_of_parentOrdered _ i ((isHeap_iff _).mp h1))
  · rw [if_neg hlast]
    have hil : i = h.Len - 1 := by omega
    rw [hil]
    exact (isHeap_iff _).mpr (cut_parentOrdered_last h hp (by omega))

theorem Delete_perm (h : Heap) (i : Nat) (e : Element) (he : h.Data[i]? = some e) :
    h.Data.Perm (e :: (h.Delete i).Data) := by
  have hi : i < h.Len := (List.getElem?_eq_some_iff.mp he).1
  unfold Delete
  rw [if_neg (by omega)]
  split
  · exact (cut_perm h i e he).trans (((Up_perm _ _).trans (Down_perm _ _ _)).symm.cons e)
  · exact cut_perm h i e he

end heap.Heap

/-- C15. Popping the heap sorts by expiry: for every finite sequence of elements
pushed onto an empty heap, calling `Pop` until `Len` is 0 returns exactly the pushed
elements (a permutation of them, so the same multiset of `ExpireAt` values) in
non-decreasing `ExpireAt` order and leaves the heap empty; before each `Pop`,
`Front` is a minimum of the remaining elements and is what `Pop` returns; and `Pop`
on the empty heap returns nil. -/
theorem heap_sort (xs : List heap.Element) :
    (heap.Heap.popAll (heap.Heap.pushAll xs)).Perm xs ∧
      (heap.Heap.popAll (heap.Heap.pushAll xs)).Pairwise (fun a b => a.ExpireAt ≤ b.ExpireAt) ∧
      (heap.Heap.popTimes xs.length (heap.Heap.pushAll xs)).Len = 0 ∧
      (∀ k r, (heap.Heap.popTimes k (heap.Heap.pushAll xs)).Front = some r →
        (∀ x ∈ (heap.Heap.popTimes k (heap.Heap.pushAll xs)).Data, r.ExpireAt ≤ x.ExpireAt) ∧
          (heap.Heap.popTimes k (heap.Heap.pushAll xs)).Pop.1 = some r) ∧
      heap.Heap.empty.Pop = (none, heap.Heap.empty) := by
  have hheap := heap.Heap.pushAll_isHeap xs
  have hperm := heap.Heap.pushAll_perm xs
  obtain ⟨h1, h2⟩ := heap.Heap.popLoop_spec _ _ hheap (le_refl _)
  refine ⟨h1.trans hperm, h2, ?_, fun k r hr => ⟨fun x hx => ?_, ?_⟩, rfl⟩
  · rw [heap.Heap.Len_popTimes]
    have := hperm.length_eq
    unfold heap.Heap.Len
    omega
  · exact heap.Heap.Front_min _ (heap.Heap.popTimes_isHeap k _ hheap) r hr x hx
  · rw [heap.Heap.Pop_fst]
    exact hr

/-- C16. Heap `Delete(i)` removes exactly one element and keeps the heap valid: for
every heap satisfying the min-heap property on `ExpireAt` and every index
`i < Len`, after `Delete(i)` the length is one less, the remaining elements are the
original ones minus the element that was at index `i` (as multisets), and the
min-heap property still holds. -/
theorem heap_delete (h : heap.Heap) (i : Nat) (hh : h.IsHeap) (hi : i < h.Len) :
    (h.Delete i).Len + 1 = h.Len ∧
      (∀ e, h.Data[i]? = some e → h.Data.Perm (e :: (h.Delete i).Data)) ∧
      (h.Delete i).IsHeap := by
  refine ⟨?_, fun e he => heap.Heap.Delete_perm h i e he, heap.Heap.Delete_isHeap h i hh hi⟩
  have he : h.Data[i]? = some h.Data[i] := List.getElem?_eq_getElem hi
  have := (heap.Heap.Delete_perm h i _ he).length_eq
  simp only [heap.Heap.Len, List.length_cons] at this ⊢
  omega

/-- Instance of C15: the five elements with `ExpireAt` 5, 3, 8, 1, 3 are popped in
the order 1, 3, 3, 5, 8; before the first `Pop`, `Front` is the element `d` with
`ExpireAt` 1. -/
theorem heap_sort_witness :
    (heap.Heap.popAll (heap.Heap.pushAll fiveElements)).map (fun e => e.ExpireAt) =
        [1, 3, 3, 5, 8] ∧
      (heap.Heap.popAll (heap.Heap.pushAll fiveElements)).Perm fiveElements ∧
      (∀ x ∈ (heap.Heap.popTimes 0 (heap.Heap.pushAll fiveElements)).Data,
        (1 : Int) ≤ x.ExpireAt) ∧
      (heap.Heap.popTimes 0 (heap.Heap.pushAll fiveElements)).Pop.1 = some ⟨"d", 1⟩ :=
  ⟨by decide, (heap_sort fiveElements).1,
    ((heap_sort fiveElements).2.2.2.1 0 ⟨"d", 1⟩ (by decide)).1,
    ((heap_sort fiveElements).2.2.2.1 0 ⟨"d", 1⟩ (by decide)).2⟩

/-- Instance of C16, after `TestHeap_Delete`: pushing 1 to 10 and then `Delete(3)`,
`Delete(5)` leaves the elements 1, 2, 3, 5, 7, 8, 9, 10, held in the array order
1, 2, 3, 8, 5, 9, 7, 10, and each `Delete` keeps the heap order. -/
theorem heap_delete_witness :
    (((heap.Heap.pushAll oneToTen).Delete 3).Delete 5).Data.map (fun e => e.ExpireAt) =
        [1, 2, 3, 8, 5, 9, 7, 10] ∧
      ((heap.Heap.pushAll oneToTen).Delete 3).Len + 1 = (heap.Heap.pushAll oneToTen).Len ∧
      ((heap.Heap.pushAll oneToTen).Delete 3).IsHeap ∧
      (((heap.Heap.pushAll oneToTen).Delete 3).Delete 5).IsHeap :=
  ⟨by decide,
    (heap_delete (heap.Heap.pushAll oneToTen) 3 (by decide) (by decide)).1,
    (heap_delete (heap.Heap.pushAll oneToTen) 3 (by decide) (by decide)).2.2,
    (heap_delete ((heap.Heap.pushAll oneToTen).Delete 3) 5 (by decide) (by decide)).2.2⟩

end memorycache
